import Mathlib

/-!
Verification of the tax-lot portfolio simulator core.

This file gives a shallow embedding, over exact rational arithmetic, of the
ledger (Lot / Position / Portfolio), the progressive tax engine, the
tax-loss-harvesting engine, the executor (buy / sell / borrow / repay), the
factor-replication optimizer's control flow, and the strategy's rebalance
step, and proves the stated properties about them.

Modelling conventions:
* Python floats are embedded as `ℚ` (exact arithmetic); float literals such
  as `1e-9` denote the corresponding rationals.
* Calendar dates are embedded as an abstract `SimDate` carrying the only
  three observations the code makes of a date: an absolute day number
  (so that `(d1 - d2).days = d1.days - d2.days`), the calendar year and the
  month.  Purchase dates inside lots are stored as the day number.
* Python `dict`s that the code iterates in insertion order are embedded as
  association lists; `dict.get`/`in` become `List.lookup`.
* Fallible code (`ZeroDivisionError`, `KeyError`, `AttributeError`) is
  embedded with `Option`, `none` marking the raised exception.
* The executor's append-only trade log is write-only bookkeeping and is not
  carried through the state.
* The `method` strings `"HIFO"`/`"FIFO"` are embedded as an enumerated type
  (the only values ever passed; any other string raises).
* Python's `sorted` is a stable sort; it is embedded as
  `List.insertionSort`, which is stable for the (total, transitive)
  comparison relations used here.  Sorting happens on index-tagged lots so
  that the in-place mutation of lot objects shared between the sorted list
  and the original `self.lots` can be replayed on the original order.
-/

namespace PortfolioCore

/-- A tax lot (`portfolio/lots.py`): a purchase record of `shares` at price
`cost_basis`, with an optional purchase date (stored as an abstract day
number). -/
structure Lot where
  shares : ℚ
  cost_basis : ℚ
  purchase_date : Option ℤ
deriving DecidableEq

/-- HIFO comparison: `sorted(lots, key=cost_basis, reverse=True)` orders
descending by cost basis (stably). -/
def hifoRel (a b : Lot) : Prop := b.cost_basis ≤ a.cost_basis

instance : DecidableRel hifoRel := fun a b =>
  inferInstanceAs (Decidable (b.cost_basis ≤ a.cost_basis))

instance : IsTotal Lot hifoRel := ⟨fun a b => le_total b.cost_basis a.cost_basis⟩

instance : IsTrans Lot hifoRel :=
  ⟨fun _ _ _ h1 h2 => le_trans h2 h1⟩

/-- FIFO key: `lot.purchase_date or 0`. -/
def fifoKey (l : Lot) : ℤ := l.purchase_date.getD 0

/-- FIFO comparison: ascending by purchase date (stably). -/
def fifoRel (a b : Lot) : Prop := fifoKey a ≤ fifoKey b

instance : DecidableRel fifoRel := fun a b =>
  inferInstanceAs (Decidable (fifoKey a ≤ fifoKey b))

instance : IsTotal Lot fifoRel := ⟨fun a b => le_total (fifoKey a) (fifoKey b)⟩

instance : IsTrans Lot fifoRel := ⟨fun _ _ _ h1 h2 => le_trans h1 h2⟩

/-- The lot-selection method (`"HIFO"` / `"FIFO"`); the spec's design notes
direct modelling the string dispatch as an enumerated choice. -/
inductive LotMethod where
  | hifo
  | fifo
deriving DecidableEq

/-- The comparison relation a method sorts by. -/
def methodRel : LotMethod → Lot → Lot → Prop
  | .hifo => hifoRel
  | .fifo => fifoRel

instance : (m : LotMethod) → DecidableRel (methodRel m)
  | .hifo => inferInstanceAs (DecidableRel hifoRel)
  | .fifo => inferInstanceAs (DecidableRel fifoRel)

/-- Comparison lifted to index-tagged lots (the tag does not participate, so
the stable sort of the tagged list mirrors the stable sort of the lots). -/
def tagRel (r : Lot → Lot → Prop) (a b : ℕ × Lot) : Prop := r a.2 b.2

instance {r : Lot → Lot → Prop} [DecidableRel r] : DecidableRel (tagRel r) :=
  fun a b => inferInstanceAs (Decidable (r a.2 b.2))

/-- A position (`portfolio/position.py`): a ticker and its ordered lots. -/
structure Position where
  ticker : String
  lots : List Lot
deriving DecidableEq

/-- `Position.total_shares`. -/
def Position.total_shares (p : Position) : ℚ := (p.lots.map Lot.shares).sum

/-- The result dict of `Position.sell_shares`. -/
structure SellResult where
  shares_sold : ℚ
  proceeds : ℚ
  realized_gain : ℚ
  lots_consumed : ℕ
deriving DecidableEq

/-- The pruning threshold `1e-12` of `sell_shares`. -/
def pruneEps : ℚ := 1 / 1000000000000

/-- Output of the lot-consumption loop in `sell_shares`: accumulated
proceeds, realized gain, number of lots touched, the final `remaining`, and
the amount consumed from each (tagged) lot, in loop order. -/
structure SellLoopOut where
  proceeds : ℚ
  realized_gain : ℚ
  lots_consumed : ℕ
  remaining : ℚ
  consumed : List (ℕ × ℚ)
deriving DecidableEq

/-- The `for lot in sorted_lots` loop of `sell_shares`: per lot consume
`min(lot.shares, remaining)`, accumulating proceeds and signed gain;
the loop breaks as soon as `remaining <= 0`. -/
def sellLoop (price : ℚ) : List (ℕ × Lot) → ℚ → SellLoopOut
  | [], remaining => ⟨0, 0, 0, remaining, []⟩
  | (i, l) :: rest, remaining =>
    if remaining ≤ 0 then ⟨0, 0, 0, remaining, []⟩
    else
      let s := min l.shares remaining
      let out := sellLoop price rest (remaining - s)
      ⟨s * price + out.proceeds, s * (price - l.cost_basis) + out.realized_gain,
        out.lots_consumed + 1, out.remaining, (i, s) :: out.consumed⟩

/-- `Position.sell_shares(shares, current_price, method)`: sort the lots
(stably) by the method's key, consume them front-to-back until the request
is met or lots run out, then rebuild `self.lots` in the original order with
the consumed amounts subtracted and near-empty lots pruned (`> 1e-12`).
Returns the result record and the mutated position. -/
def Position.sell_shares (pos : Position) (shares current_price : ℚ)
    (method : LotMethod) : SellResult × Position :=
  let tagged := pos.lots.enum
  let sorted_lots := tagged.insertionSort (tagRel (methodRel method))
  let out := sellLoop current_price sorted_lots shares
  let new_lots := (tagged.map fun p =>
    { p.2 with shares := p.2.shares - ((out.consumed.lookup p.1).getD 0) }).filter
      fun l => pruneEps < l.shares
  (⟨shares - out.remaining, out.proceeds, out.realized_gain, out.lots_consumed⟩,
    { pos with lots := new_lots })

/-- Total shares the consumption loop takes from `lots` when asked for
`remaining` (untagged mirror of `sellLoop`). -/
def soldShares : List Lot → ℚ → ℚ
  | [], _ => 0
  | l :: rest, remaining =>
    if remaining ≤ 0 then 0
    else min l.shares remaining + soldShares rest (remaining - min l.shares remaining)

/-- Total cost basis the consumption loop takes from `lots` (untagged mirror
of `sellLoop`). -/
def soldCost : List Lot → ℚ → ℚ
  | [], _ => 0
  | l :: rest, remaining =>
    if remaining ≤ 0 then 0
    else min l.shares remaining * l.cost_basis +
      soldCost rest (remaining - min l.shares remaining)

theorem sellLoop_remaining (price : ℚ) :
    ∀ (tl : List (ℕ × Lot)) (r : ℚ),
      (sellLoop price tl r).remaining = r - soldShares (tl.map Prod.snd) r
  | [], r => by simp [sellLoop, soldShares]
  | (i, l) :: rest, r => by
    by_cases h : r ≤ 0
    · simp [sellLoop, soldShares, h]
    · simp [sellLoop, soldShares, h, sellLoop_remaining price rest (r - min l.shares r)]
      ring

theorem sellLoop_proceeds (price : ℚ) :
    ∀ (tl : List (ℕ × Lot)) (r : ℚ),
      (sellLoop price tl r).proceeds = price * soldShares (tl.map Prod.snd) r
  | [], r => by simp [sellLoop, soldShares]
  | (i, l) :: rest, r => by
    by_cases h : r ≤ 0
    · simp [sellLoop, soldShares, h]
    · simp [sellLoop, soldShares, h, sellLoop_proceeds price rest (r - min l.shares r)]
      ring

theorem sellLoop_gain (price : ℚ) :
    ∀ (tl : List (ℕ × Lot)) (r : ℚ),
      (sellLoop price tl r).realized_gain =
        price * soldShares (tl.map Prod.snd) r - soldCost (tl.map Prod.snd) r
  | [], r => by simp [sellLoop, soldShares, soldCost]
  | (i, l) :: rest, r => by
    by_cases h : r ≤ 0
    · simp [sellLoop, soldShares, soldCost, h]
    · simp [sellLoop, soldShares, soldCost, h, sellLoop_gain price rest (r - min l.shares r)]
      ring

/-- The stable sort of the tagged lots projects to the stable sort of the
lots themselves. -/
theorem sorted_tagged_map_snd (r : Lot → Lot → Prop) [DecidableRel r]
    (lots : List Lot) :
    (lots.enum.insertionSort (tagRel r)).map Prod.snd = lots.insertionSort r := by
  rw [List.map_insertionSort (tagRel r) r Prod.snd lots.enum
    (fun a _ b _ => Iff.rfl), List.enum_map_snd]

/-- The lots a method sorts a position's lots into. -/
def sortedLots (method : LotMethod) (lots : List Lot) : List Lot :=
  lots.insertionSort (methodRel method)

theorem sell_shares_shares_sold (pos : Position) (shares price : ℚ)
    (method : LotMethod) :
    (Position.sell_shares pos shares price method).1.shares_sold =
      soldShares (sortedLots method pos.lots) shares := by
  unfold Position.sell_shares
  simp only [sellLoop_remaining, sorted_tagged_map_snd, sortedLots]
  ring

theorem sell_shares_proceeds (pos : Position) (shares price : ℚ)
    (method : LotMethod) :
    (Position.sell_shares pos shares price method).1.proceeds =
      price * soldShares (sortedLots method pos.lots) shares := by
  unfold Position.sell_shares
  simp only [sellLoop_proceeds, sorted_tagged_map_snd, sortedLots]

theorem sell_shares_realized_gain (pos : Position) (shares price : ℚ)
    (method : LotMethod) :
    (Position.sell_shares pos shares price method).1.realized_gain =
      price * soldShares (sortedLots method pos.lots) shares -
        soldCost (sortedLots method pos.lots) shares := by
  unfold Position.sell_shares
  simp only [sellLoop_gain, sorted_tagged_map_snd, sortedLots]

/-- `soldShares` is 0 on a non-positive request (the loop breaks at once). -/
theorem soldShares_nonpos : ∀ (lots : List Lot) {r : ℚ}, r ≤ 0 → soldShares lots r = 0
  | [], _, _ => rfl
  | _ :: _, _, h => by simp [soldShares, h]

/-- `soldCost` is 0 on a non-positive request. -/
theorem soldCost_nonpos : ∀ (lots : List Lot) {r : ℚ}, r ≤ 0 → soldCost lots r = 0
  | [], _, _ => rfl
  | _ :: _, _, h => by simp [soldCost, h]

/-- Unconditional cons unfolding of `soldShares`, valid for `0 ≤ r` when the
head lot has non-negative shares. -/
theorem soldShares_cons (l : Lot) (rest : List Lot) {r : ℚ} (hr : 0 ≤ r)
    (hl : 0 ≤ l.shares) :
    soldShares (l :: rest) r =
      min l.shares r + soldShares rest (r - min l.shares r) := by
  by_cases h : r ≤ 0
  · have hr0 : r = 0 := le_antisymm h hr
    subst hr0
    simp [soldShares, min_eq_right hl, soldShares_nonpos]
  · simp [soldShares, h]

/-- Unconditional cons unfolding of `soldCost`. -/
theorem soldCost_cons (l : Lot) (rest : List Lot) {r : ℚ} (hr : 0 ≤ r)
    (hl : 0 ≤ l.shares) :
    soldCost (l :: rest) r =
      min l.shares r * l.cost_basis + soldCost rest (r - min l.shares r) := by
  by_cases h : r ≤ 0
  · have hr0 : r = 0 := le_antisymm h hr
    subst hr0
    simp [soldCost, min_eq_right hl, soldCost_nonpos]
  · simp [soldCost, h]

/-- The loop sells `min(requested, total shares)`: the clamping property. -/
theorem soldShares_eq_min :
    ∀ (lots : List Lot) {r : ℚ}, 0 ≤ r → (∀ l ∈ lots, 0 ≤ l.shares) →
      soldShares lots r = min r (lots.map Lot.shares).sum
  | [], r, hr, _ => by simp [soldShares, min_eq_right hr]
  | l :: rest, r, hr, hsh => by
    have hl : 0 ≤ l.shares := hsh l (by simp)
    have hrest : ∀ x ∈ rest, 0 ≤ x.shares := fun x hx => hsh x (by simp [hx])
    have hsum : 0 ≤ (rest.map Lot.shares).sum :=
      List.sum_nonneg (by simpa using hrest)
    have hm : 0 ≤ r - min l.shares r := by
      have := min_le_right l.shares r
      linarith
    rw [soldShares_cons l rest hr hl, soldShares_eq_min rest hm hrest,
      List.map_cons, List.sum_cons]
    rcases le_total l.shares r with hc | hc
    · rw [min_eq_left hc]
      rcases le_total (r - l.shares) (rest.map Lot.shares).sum with hd | hd
      · rw [min_eq_left hd, min_eq_left (by linarith)]
        ring
      · rw [min_eq_right hd, min_eq_right (by linarith)]
    · rw [min_eq_right hc]
      have : min r (l.shares + (rest.map Lot.shares).sum) = r :=
        min_eq_left (by linarith)
      rw [this, sub_self, min_eq_left hsum]
      ring

/-- `soldShares` is non-negative. -/
theorem soldShares_nonneg :
    ∀ (lots : List Lot) (r : ℚ), (∀ l ∈ lots, 0 ≤ l.shares) →
      0 ≤ soldShares lots r
  | [], r, _ => le_rfl
  | l :: rest, r, hsh => by
    by_cases h : r ≤ 0
    · simp [soldShares, h]
    · push_neg at h
      have hl : 0 ≤ l.shares := hsh l (by simp)
      have := soldShares_nonneg rest (r - min l.shares r)
        (fun x hx => hsh x (by simp [hx]))
      have hm : 0 ≤ min l.shares r := le_min hl (le_of_lt h)
      simp only [soldShares, if_neg (not_le.mpr h)]
      linarith

/-- When the request exceeds the total shares the loop just consumes
everything: `soldShares` saturates. -/
theorem soldShares_of_total_le (lots : List Lot) {r : ℚ} (hr : 0 ≤ r)
    (hsh : ∀ l ∈ lots, 0 ≤ l.shares) (h : (lots.map Lot.shares).sum ≤ r) :
    soldShares lots r = (lots.map Lot.shares).sum := by
  rw [soldShares_eq_min lots hr hsh, min_eq_right h]

/-- Past the total, `soldCost` saturates at the full cost of the ledger. -/
theorem soldCost_of_total_le :
    ∀ (lots : List Lot) {r : ℚ}, (∀ l ∈ lots, 0 ≤ l.shares) →
      (lots.map Lot.shares).sum ≤ r →
      soldCost lots r = (lots.map fun l => l.shares * l.cost_basis).sum
  | [], r, _, _ => by simp [soldCost]
  | l :: rest, r, hsh, h => by
    have hl : 0 ≤ l.shares := hsh l (by simp)
    have hrest : ∀ x ∈ rest, 0 ≤ x.shares := fun x hx => hsh x (by simp [hx])
    have hsum : 0 ≤ (rest.map Lot.shares).sum :=
      List.sum_nonneg (by simpa using hrest)
    simp only [List.map_cons, List.sum_cons] at h
    have hr : 0 ≤ r := by linarith
    have hmin : min l.shares r = l.shares := min_eq_left (by linarith)
    rw [soldCost_cons l rest hr hl, hmin,
      soldCost_of_total_le rest hrest (by linarith)]
    simp

/-- A descending-by-cost-basis (HIFO-sorted) lot list splits into a prefix
of loss lots (cost basis above the price) followed by gain lots only:
at a single price, every loss lot sorts strictly above every gain lot. -/
theorem sorted_loss_split (price : ℚ) :
    ∀ {L : List Lot}, List.Sorted hifoRel L →
      ∃ P S, L = P ++ S ∧ (∀ l ∈ P, price < l.cost_basis) ∧
        (∀ l ∈ S, l.cost_basis ≤ price)
  | [], _ => ⟨[], [], rfl, by simp, by simp⟩
  | a :: L, hs => by
    by_cases hc : a.cost_basis ≤ price
    · refine ⟨[], a :: L, rfl, by simp, ?_⟩
      intro l hl
      rcases List.mem_cons.mp hl with h | h
      · subst h; exact hc
      · exact le_trans (List.rel_of_sorted_cons hs l h) hc
    · obtain ⟨P, S, hL, hP, hS⟩ := sorted_loss_split price hs.of_cons
      exact ⟨a :: P, S, by simp [hL], by
        intro l hl
        rcases List.mem_cons.mp hl with h | h
        · subst h; exact lt_of_not_le hc
        · exact hP l h, hS⟩

/-- The walk of `TaxHarvestingEngine._shares_for_target_loss`: over
HIFO-ordered lots, skip lots at a gain, take whole loss lots while their
total loss stays below the target, and a fractional amount of the lot that
reaches it. -/
def sharesForLossLoop (current_price : ℚ) : List Lot → ℚ → ℚ
  | [], _ => 0
  | l :: rest, needed =>
    let lossPerShare := l.cost_basis - current_price
    if lossPerShare ≤ 0 then sharesForLossLoop current_price rest needed
    else if needed ≤ lossPerShare * l.shares then needed / lossPerShare
    else l.shares + sharesForLossLoop current_price rest (needed - lossPerShare * l.shares)

/-- `TaxHarvestingEngine._shares_for_target_loss(position, current_price,
target_loss)`. -/
def shares_for_target_loss (pos : Position) (current_price target_loss : ℚ) : ℚ :=
  sharesForLossLoop current_price (pos.lots.insertionSort hifoRel) target_loss

/-- On lots all standing at a gain the walk takes nothing. -/
theorem sharesForLossLoop_of_gain (price : ℚ) :
    ∀ (S : List Lot), (∀ l ∈ S, l.cost_basis ≤ price) → ∀ needed,
      sharesForLossLoop price S needed = 0
  | [], _, _ => rfl
  | l :: rest, hS, needed => by
    have h : l.cost_basis - price ≤ 0 := by
      have := hS l (by simp); linarith
    simp only [sharesForLossLoop, if_pos h]
    exact sharesForLossLoop_of_gain price rest (fun x hx => hS x (by simp [hx])) needed

/-- The walk returns a non-negative share count. -/
theorem sharesForLossLoop_nonneg (price : ℚ) :
    ∀ (lots : List Lot) {needed : ℚ}, (∀ l ∈ lots, 0 ≤ l.shares) →
      0 ≤ needed → 0 ≤ sharesForLossLoop price lots needed
  | [], _, _, _ => le_rfl
  | l :: rest, needed, hsh, hn => by
    have hrest : ∀ x ∈ rest, 0 ≤ x.shares := fun x hx => hsh x (by simp [hx])
    have hl : 0 ≤ l.shares := hsh l (by simp)
    by_cases h : l.cost_basis - price ≤ 0
    · simpa [sharesForLossLoop, h] using
        sharesForLossLoop_nonneg price rest hrest hn
    · push_neg at h
      by_cases h2 : needed ≤ (l.cost_basis - price) * l.shares
      · simp only [sharesForLossLoop, if_neg (not_le.mpr h), if_pos h2]
        positivity
      · push_neg at h2
        have hpos : 0 ≤ (l.cost_basis - price) * l.shares := by positivity
        have := sharesForLossLoop_nonneg price rest hrest
          (show (0 : ℚ) ≤ needed - (l.cost_basis - price) * l.shares by linarith)
        simp only [sharesForLossLoop, if_neg (not_le.mpr h), if_neg (not_le.mpr h2)]
        linarith

/-- A target of 0 yields 0 shares to sell. -/
theorem sharesForLossLoop_zero (price : ℚ) :
    ∀ (lots : List Lot), (∀ l ∈ lots, 0 ≤ l.shares) →
      sharesForLossLoop price lots 0 = 0
  | [], _ => rfl
  | l :: rest, hsh => by
    have hrest : ∀ x ∈ rest, 0 ≤ x.shares := fun x hx => hsh x (by simp [hx])
    by_cases h : l.cost_basis - price ≤ 0
    · simpa [sharesForLossLoop, h] using sharesForLossLoop_zero price rest hrest
    · push_neg at h
      have hl : 0 ≤ l.shares := hsh l (by simp)
      have h2 : (0 : ℚ) ≤ (l.cost_basis - price) * l.shares := by positivity
      simp [sharesForLossLoop, not_le.mpr h, h2]

/-- The maximal loss a sell at `price` can realize out of `lots`: the summed
loss of the lots standing at a loss. -/
def lossCapacity (lots : List Lot) (price : ℚ) : ℚ :=
  (lots.map fun l => max (l.cost_basis - price) 0 * l.shares).sum

theorem lossCapacity_append (P S : List Lot) (price : ℚ) :
    lossCapacity (P ++ S) price = lossCapacity P price + lossCapacity S price := by
  simp [lossCapacity]

theorem lossCapacity_nonneg (lots : List Lot) (price : ℚ)
    (hsh : ∀ l ∈ lots, 0 ≤ l.shares) : 0 ≤ lossCapacity lots price := by
  refine List.sum_nonneg ?_
  intro x hx
  obtain ⟨l, hl, rfl⟩ := List.mem_map.mp hx
  have := hsh l hl
  positivity

theorem lossCapacity_of_gain (S : List Lot) (price : ℚ)
    (hS : ∀ l ∈ S, l.cost_basis ≤ price) : lossCapacity S price = 0 := by
  unfold lossCapacity
  rw [List.sum_eq_zero]
  intro x hx
  obtain ⟨l, hl, rfl⟩ := List.mem_map.mp hx
  have : max (l.cost_basis - price) 0 = 0 := max_eq_right (by have := hS l hl; linarith)
  rw [this, zero_mul]

theorem lossCapacity_perm {l1 l2 : List Lot} (h : l1.Perm l2) (price : ℚ) :
    lossCapacity l1 price = lossCapacity l2 price :=
  (h.map _).sum_eq

/-- Central harvesting lemma: on a lot list whose loss lots all precede its
gain lots (as HIFO ordering guarantees at a single price), selling the
share count computed by the `_shares_for_target_loss` walk realizes a gain
of exactly `-(min needed (loss capacity))`. -/
theorem gain_of_sharesForLoss (price : ℚ) :
    ∀ (P S : List Lot), (∀ l ∈ P, price < l.cost_basis) →
      (∀ l ∈ S, l.cost_basis ≤ price) →
      (∀ l ∈ P, 0 ≤ l.shares) → (∀ l ∈ S, 0 ≤ l.shares) →
      ∀ {needed : ℚ}, 0 < needed →
      price * soldShares (P ++ S) (sharesForLossLoop price (P ++ S) needed) -
        soldCost (P ++ S) (sharesForLossLoop price (P ++ S) needed) =
      -(min needed (lossCapacity P price))
  | [], S, _, hS, _, _, needed, hn => by
    rw [List.nil_append, sharesForLossLoop_of_gain price S hS needed,
      soldShares_nonpos S le_rfl, soldCost_nonpos S le_rfl, lossCapacity,
      List.map_nil, List.sum_nil, min_eq_right (le_of_lt hn)]
    ring
  | l :: P', S, hP, hS, hshP, hshS, needed, hn => by
    have hl : price < l.cost_basis := hP l (by simp)
    have hlsh : 0 ≤ l.shares := hshP l (by simp)
    have hlps : 0 < l.cost_basis - price := by linarith
    have hP' : ∀ x ∈ P', price < x.cost_basis := fun x hx => hP x (by simp [hx])
    have hshP' : ∀ x ∈ P', 0 ≤ x.shares := fun x hx => hshP x (by simp [hx])
    have hshPS : ∀ x ∈ P' ++ S, 0 ≤ x.shares := by
      intro x hx
      rcases List.mem_append.mp hx with h | h
      · exact hshP' x h
      · exact hshS x h
    have hcapP' : 0 ≤ lossCapacity P' price := lossCapacity_nonneg P' price hshP'
    have hmax : max (l.cost_basis - price) 0 = l.cost_basis - price :=
      max_eq_left (le_of_lt hlps)
    have hcap_cons : lossCapacity (l :: P') price =
        (l.cost_basis - price) * l.shares + lossCapacity P' price := by
      simp [lossCapacity, hmax]
    by_cases h2 : needed ≤ (l.cost_basis - price) * l.shares
    · -- this lot alone reaches the target: a fractional sell of it
      have hwalk : sharesForLossLoop price ((l :: P') ++ S) needed =
          needed / (l.cost_basis - price) := by
        simp [sharesForLossLoop, not_le.mpr hlps, h2]
      have hs_pos : 0 < needed / (l.cost_basis - price) := by positivity
      have hs_le : needed / (l.cost_basis - price) ≤ l.shares := by
        rw [div_le_iff₀ hlps]
        linarith [h2]
      have hmin : min l.shares (needed / (l.cost_basis - price)) =
          needed / (l.cost_basis - price) := min_eq_right hs_le
      rw [hwalk, List.cons_append,
        soldShares_cons l (P' ++ S) (le_of_lt hs_pos) hlsh,
        soldCost_cons l (P' ++ S) (le_of_lt hs_pos) hlsh, hmin, sub_self,
        soldShares_nonpos _ le_rfl, soldCost_nonpos _ le_rfl, hcap_cons,
        min_eq_left (by linarith)]
      field_simp
      ring
    · -- take the whole lot and recurse
      push_neg at h2
      have hneeded' : 0 < needed - (l.cost_basis - price) * l.shares := by linarith
      set s' := sharesForLossLoop price (P' ++ S)
        (needed - (l.cost_basis - price) * l.shares) with hs'
      have hs'_nonneg : 0 ≤ s' :=
        sharesForLossLoop_nonneg price (P' ++ S) hshPS (le_of_lt hneeded')
      have hwalk : sharesForLossLoop price ((l :: P') ++ S) needed = l.shares + s' := by
        simp [sharesForLossLoop, not_le.mpr hlps, not_le.mpr h2, hs']
      have ih := gain_of_sharesForLoss price P' S hP' hS hshP' hshS hneeded'
      rw [← hs'] at ih
      have hmin : min l.shares (l.shares + s') = l.shares := min_eq_left (by linarith)
      rw [hwalk, List.cons_append,
        soldShares_cons l (P' ++ S) (by linarith) hlsh,
        soldCost_cons l (P' ++ S) (by linarith) hlsh, hmin, add_sub_cancel_left,
        hcap_cons]
      rcases le_total (needed - (l.cost_basis - price) * l.shares)
          (lossCapacity P' price) with hd | hd
      · rw [min_eq_left hd] at ih
        rw [min_eq_left (by linarith)]
        linarith [ih]
      · rw [min_eq_right hd] at ih
        rw [min_eq_right (by linarith)]
        linarith [ih]

/-- The permutation facts about the sorted lot lists. -/
theorem sortedLots_perm (method : LotMethod) (lots : List Lot) :
    (sortedLots method lots).Perm lots :=
  List.perm_insertionSort (methodRel method) lots

theorem mem_sortedLots {method : LotMethod} {lots : List Lot} {l : Lot} :
    l ∈ sortedLots method lots ↔ l ∈ lots :=
  List.mem_insertionSort (methodRel method)

theorem sum_shares_sortedLots (method : LotMethod) (lots : List Lot) :
    ((sortedLots method lots).map Lot.shares).sum = (lots.map Lot.shares).sum :=
  ((sortedLots_perm method lots).map Lot.shares).sum_eq

/-- C7: `Position.sell_shares` sells exactly `min(requested, total_shares)`
— an over-request sells what exists and reports the shortfall through
`shares_sold < requested` rather than failing — with
`proceeds = shares_sold × price` and the realized gain equal to the signed
consumed-cost accounting `shares_sold × price − consumed cost basis`. -/
theorem sell_shares_sells_min_available (pos : Position) (shares price : ℚ)
    (method : LotMethod) (hsh : ∀ l ∈ pos.lots, 0 ≤ l.shares) (hs : 0 ≤ shares) :
    (Position.sell_shares pos shares price method).1.shares_sold =
        min shares (Position.total_shares pos) ∧
    (Position.sell_shares pos shares price method).1.proceeds =
        (Position.sell_shares pos shares price method).1.shares_sold * price ∧
    (Position.sell_shares pos shares price method).1.realized_gain =
        (Position.sell_shares pos shares price method).1.shares_sold * price -
          soldCost (sortedLots method pos.lots) shares := by
  have hsorted : ∀ l ∈ sortedLots method pos.lots, 0 ≤ l.shares := fun l hl =>
    hsh l (mem_sortedLots.mp hl)
  have hmin : soldShares (sortedLots method pos.lots) shares =
      min shares (Position.total_shares pos) := by
    rw [soldShares_eq_min _ hs hsorted, sum_shares_sortedLots]
    rfl
  refine ⟨?_, ?_, ?_⟩
  · rw [sell_shares_shares_sold, hmin]
  · rw [sell_shares_proceeds, sell_shares_shares_sold]
    ring
  · rw [sell_shares_realized_gain, sell_shares_shares_sold]
    ring

/-- Witness for C7: the spec's scenario — lots `[(5sh@50),(5sh@200)]`, sell
5 shares at 120 under HIFO. -/
theorem sell_shares_sells_min_available_witness :
    (Position.sell_shares ⟨"A", [⟨5, 50, some 0⟩, ⟨5, 200, some 1⟩]⟩ 5 120
        LotMethod.hifo).1.shares_sold =
      min 5 (Position.total_shares ⟨"A", [⟨5, 50, some 0⟩, ⟨5, 200, some 1⟩]⟩) ∧
    (Position.sell_shares ⟨"A", [⟨5, 50, some 0⟩, ⟨5, 200, some 1⟩]⟩ 5 120
        LotMethod.hifo).1.proceeds =
      (Position.sell_shares ⟨"A", [⟨5, 50, some 0⟩, ⟨5, 200, some 1⟩]⟩ 5 120
        LotMethod.hifo).1.shares_sold * 120 ∧
    (Position.sell_shares ⟨"A", [⟨5, 50, some 0⟩, ⟨5, 200, some 1⟩]⟩ 5 120
        LotMethod.hifo).1.realized_gain =
      (Position.sell_shares ⟨"A", [⟨5, 50, some 0⟩, ⟨5, 200, some 1⟩]⟩ 5 120
        LotMethod.hifo).1.shares_sold * 120 -
        soldCost (sortedLots LotMethod.hifo
          [⟨5, 50, some 0⟩, ⟨5, 200, some 1⟩]) 5 :=
  sell_shares_sells_min_available ⟨"A", [⟨5, 50, some 0⟩, ⟨5, 200, some 1⟩]⟩
    5 120 LotMethod.hifo (by decide) (by norm_num)

/-- C9: at a single price, HIFO puts every loss lot strictly before every
gain lot, and selling the share count computed by
`_shares_for_target_loss` for a reachable target `L` realizes exactly
`-L`. -/
theorem hifo_sell_realizes_target_loss (pos : Position) (price L : ℚ)
    (hsh : ∀ l ∈ pos.lots, 0 ≤ l.shares) (hL : 0 < L)
    (hcap : L ≤ lossCapacity pos.lots price) :
    (∃ P S, sortedLots LotMethod.hifo pos.lots = P ++ S ∧
        (∀ l ∈ P, price < l.cost_basis) ∧ (∀ l ∈ S, l.cost_basis ≤ price)) ∧
    (Position.sell_shares pos (shares_for_target_loss pos price L) price
        LotMethod.hifo).1.realized_gain = -L := by
  have hsortrel : sortedLots LotMethod.hifo pos.lots =
      pos.lots.insertionSort hifoRel := rfl
  have hsorted : List.Sorted hifoRel (sortedLots LotMethod.hifo pos.lots) := by
    rw [hsortrel]
    exact List.sorted_insertionSort hifoRel pos.lots
  obtain ⟨P, S, hPS, hP, hS⟩ := sorted_loss_split price hsorted
  have hshP : ∀ l ∈ P, 0 ≤ l.shares := fun l hl =>
    hsh l (mem_sortedLots.mp (hPS ▸ List.mem_append_left S hl))
  have hshS : ∀ l ∈ S, 0 ≤ l.shares := fun l hl =>
    hsh l (mem_sortedLots.mp (hPS ▸ List.mem_append_right P hl))
  have hcapP : L ≤ lossCapacity P price := by
    have h1 : lossCapacity pos.lots price = lossCapacity (P ++ S) price := by
      rw [← hPS]
      exact (lossCapacity_perm (sortedLots_perm LotMethod.hifo pos.lots) price).symm
    have h2 := lossCapacity_of_gain S price hS
    rw [h1, lossCapacity_append, h2] at hcap
    linarith
  refine ⟨⟨P, S, hPS, hP, hS⟩, ?_⟩
  have hwalk : shares_for_target_loss pos price L =
      sharesForLossLoop price (P ++ S) L := by
    rw [shares_for_target_loss, ← hsortrel, hPS]
  rw [sell_shares_realized_gain, hPS, hwalk,
    gain_of_sharesForLoss price P S hP hS hshP hshS hL,
    min_eq_left hcapP]

/-- Witness for C9: a loss lot (10sh@5) and a gain lot (4sh@2) at price 3,
harvesting a target loss of 6. -/
theorem hifo_sell_realizes_target_loss_witness :
    (∃ P S, sortedLots LotMethod.hifo
        (Position.mk "B" [⟨10, 5, some 0⟩, ⟨4, 2, some 1⟩]).lots = P ++ S ∧
        (∀ l ∈ P, (3 : ℚ) < l.cost_basis) ∧ (∀ l ∈ S, l.cost_basis ≤ 3)) ∧
    (Position.sell_shares (Position.mk "B" [⟨10, 5, some 0⟩, ⟨4, 2, some 1⟩])
        (shares_for_target_loss
          (Position.mk "B" [⟨10, 5, some 0⟩, ⟨4, 2, some 1⟩]) 3 6) 3
        LotMethod.hifo).1.realized_gain = -6 :=
  hifo_sell_realizes_target_loss
    (Position.mk "B" [⟨10, 5, some 0⟩, ⟨4, 2, some 1⟩]) 3 6
    (by decide) (by norm_num) (by norm_num [lossCapacity])

/-- The per-lot consumption of the sell walk, paired with its lot. -/
def consumedPairs : List Lot → ℚ → List (ℚ × Lot)
  | [], _ => []
  | l :: rest, r =>
    if r ≤ 0 then (0, l) :: consumedPairs rest r
    else (min l.shares r, l) :: consumedPairs rest (r - min l.shares r)

theorem consumedPairs_map_snd : ∀ (lots : List Lot) (r : ℚ),
    (consumedPairs lots r).map Prod.snd = lots
  | [], _ => rfl
  | l :: rest, r => by
    by_cases h : r ≤ 0 <;>
      simp [consumedPairs, h, consumedPairs_map_snd rest]

theorem consumedPairs_cost : ∀ (lots : List Lot) (r : ℚ),
    ((consumedPairs lots r).map fun p => p.1 * p.2.cost_basis).sum =
      soldCost lots r
  | [], _ => by simp [consumedPairs, soldCost]
  | l :: rest, r => by
    by_cases h : r ≤ 0
    · rw [soldCost_nonpos _ h]
      simp [consumedPairs, h, consumedPairs_cost rest r, soldCost_nonpos _ h]
    · simp [consumedPairs, soldCost, h, consumedPairs_cost rest]

theorem consumedPairs_amount : ∀ (lots : List Lot) (r : ℚ),
    ((consumedPairs lots r).map Prod.fst).sum = soldShares lots r
  | [], _ => by simp [consumedPairs, soldShares]
  | l :: rest, r => by
    by_cases h : r ≤ 0
    · rw [soldShares_nonpos _ h]
      simp [consumedPairs, h, consumedPairs_amount rest r, soldShares_nonpos _ h]
    · simp [consumedPairs, soldShares, h, consumedPairs_amount rest]

theorem consumedPairs_feasible : ∀ (lots : List Lot) (r : ℚ),
    (∀ l ∈ lots, 0 ≤ l.shares) →
    ∀ p ∈ consumedPairs lots r, 0 ≤ p.1 ∧ p.1 ≤ p.2.shares
  | [], _, _ => by simp [consumedPairs]
  | l :: rest, r, hsh => by
    have hl : 0 ≤ l.shares := hsh l (by simp)
    have hrest : ∀ x ∈ rest, 0 ≤ x.shares := fun x hx => hsh x (by simp [hx])
    by_cases h : r ≤ 0
    · intro p hp
      rcases List.mem_cons.mp (by simpa [consumedPairs, h] using hp) with h1 | h1
      · subst h1; exact ⟨le_rfl, hl⟩
      · exact consumedPairs_feasible rest r hrest p h1
    · push_neg at h
      intro p hp
      rcases List.mem_cons.mp
          (by simpa [consumedPairs, not_le.mpr h] using hp) with h1 | h1
      · subst h1
        exact ⟨le_min hl (le_of_lt h), min_le_left _ _⟩
      · exact consumedPairs_feasible rest (r - min l.shares r) hrest p h1

/-- The consumed cost over a walk grows at most at rate `c` in the request,
for `c` above every cost basis, while the request stays within the ledger. -/
theorem soldCost_lipschitz :
    ∀ (L : List Lot) (c : ℚ), (∀ l ∈ L, l.cost_basis ≤ c) →
      (∀ l ∈ L, 0 ≤ l.shares) →
      ∀ {a b : ℚ}, 0 ≤ b → b ≤ a → a ≤ (L.map Lot.shares).sum →
      soldCost L a - soldCost L b ≤ c * (a - b)
  | [], c, _, _, a, b, hb, hba, ha => by
    simp only [List.map_nil, List.sum_nil] at ha
    have hb0 : b = 0 := le_antisymm (le_trans hba ha) hb
    have ha0 : a = 0 := le_antisymm ha (hb0 ▸ hba)
    simp [soldCost, ha0, hb0]
  | l :: L', c, hc, hsh, a, b, hb, hba, ha => by
    have hl : 0 ≤ l.shares := hsh l (by simp)
    have hcl : l.cost_basis ≤ c := hc l (by simp)
    have hcL' : ∀ x ∈ L', x.cost_basis ≤ c := fun x hx => hc x (by simp [hx])
    have hshL' : ∀ x ∈ L', 0 ≤ x.shares := fun x hx => hsh x (by simp [hx])
    have hsum' : 0 ≤ (L'.map Lot.shares).sum :=
      List.sum_nonneg (by simpa using hshL')
    have hha : 0 ≤ a := le_trans hb hba
    have hsum_cons : a ≤ l.shares + (L'.map Lot.shares).sum := by simpa using ha
    have hgab : min l.shares b ≤ min l.shares a := min_le_min le_rfl hba
    have h1 : 0 ≤ b - min l.shares b := sub_nonneg.mpr (min_le_right _ _)
    have h2 : b - min l.shares b ≤ a - min l.shares a := by
      rcases le_total l.shares b with hsb | hsb
      · rw [min_eq_left hsb, min_eq_left (le_trans hsb hba)]
        linarith
      · rw [min_eq_right hsb]
        have := min_le_right l.shares a
        linarith
    have h3 : a - min l.shares a ≤ (L'.map Lot.shares).sum := by
      rcases le_total l.shares a with hs | hs
      · rw [min_eq_left hs]
        linarith
      · rw [min_eq_right hs]
        simpa using hsum'
    have ih := soldCost_lipschitz L' c hcL' hshL' h1 h2 h3
    have hring : c * (a - min l.shares a - (b - min l.shares b)) =
        c * (a - b) - (min l.shares a - min l.shares b) * c := by ring
    rw [hring] at ih
    have hmul : (min l.shares a - min l.shares b) * l.cost_basis ≤
        (min l.shares a - min l.shares b) * c :=
      mul_le_mul_of_nonneg_left hcl (sub_nonneg.mpr hgab)
    have hmul2 : min l.shares a * l.cost_basis - min l.shares b * l.cost_basis ≤
        (min l.shares a - min l.shares b) * c := by
      have hexp : (min l.shares a - min l.shares b) * l.cost_basis =
          min l.shares a * l.cost_basis - min l.shares b * l.cost_basis := by ring
      linarith [hmul, hexp.symm.le, hexp.le]
    rw [soldCost_cons l L' hha hl, soldCost_cons l L' hb hl]
    linarith

/-- Greedy optimality of HIFO: among all ways to take a given total share
amount out of the same multiset of lots (each lot contributing at most its
shares), consuming them in descending cost-basis order maximizes the cost
basis consumed. -/
theorem hifo_max_consumed_cost :
    ∀ (l1 : List Lot), List.Sorted hifoRel l1 → (∀ l ∈ l1, 0 ≤ l.shares) →
      ∀ (pairs : List (ℚ × Lot)), ((pairs.map Prod.snd).Perm l1) →
      (∀ p ∈ pairs, 0 ≤ p.1 ∧ p.1 ≤ p.2.shares) →
      (pairs.map fun p => p.1 * p.2.cost_basis).sum ≤
        soldCost l1 ((pairs.map Prod.fst).sum)
  | [], _, _, pairs, hperm, _ => by
    have : pairs.map Prod.snd = [] := List.Perm.eq_nil hperm
    have hnil : pairs = [] := List.map_eq_nil_iff.mp this
    simp [hnil, soldCost]
  | a :: l1', hsorted, hsh, pairs, hperm, hfeas => by
    have hmem : a ∈ pairs.map Prod.snd := hperm.mem_iff.mpr (by simp)
    obtain ⟨p, hp_mem, hp2⟩ := List.mem_map.mp hmem
    obtain ⟨m, pa⟩ := p
    simp only at hp2
    subst pa
    obtain ⟨u, v, huv⟩ := List.append_of_mem hp_mem
    subst huv
    have hmid : ((u ++ (m, a) :: v).map Prod.snd).Perm
        (a :: (u ++ v).map Prod.snd) := by
      simp only [List.map_append, List.map_cons]
      exact List.perm_middle
    have hperm' : ((u ++ v).map Prod.snd).Perm l1' :=
      (hmid.symm.trans hperm).cons_inv
    have hfeas' : ∀ p ∈ u ++ v, 0 ≤ p.1 ∧ p.1 ≤ p.2.shares := by
      intro p hp
      refine hfeas p ?_
      rcases List.mem_append.mp hp with h | h
      · exact List.mem_append_left _ h
      · exact List.mem_append_right _ (List.mem_cons_of_mem _ h)
    have hm := hfeas (m, a) (by simp)
    have hm0 : 0 ≤ m := hm.1
    have hma : m ≤ a.shares := hm.2
    have hsh' : ∀ l ∈ l1', 0 ≤ l.shares := fun l hl => hsh l (by simp [hl])
    have hsha : 0 ≤ a.shares := hsh a (by simp)
    have hcb : ∀ l ∈ l1', l.cost_basis ≤ a.cost_basis := fun l hl =>
      List.rel_of_sorted_cons hsorted l hl
    have ht'0 : 0 ≤ ((u ++ v).map Prod.fst).sum := by
      refine List.sum_nonneg ?_
      intro x hx
      obtain ⟨q, hq, rfl⟩ := List.mem_map.mp hx
      exact (hfeas' q hq).1
    have hsum_fst : ((u ++ (m, a) :: v).map Prod.fst).sum =
        ((u ++ v).map Prod.fst).sum + m := by
      simp [List.sum_append]
      ring
    have hsum_cost : ((u ++ (m, a) :: v).map fun p => p.1 * p.2.cost_basis).sum =
        ((u ++ v).map fun p => p.1 * p.2.cost_basis).sum + m * a.cost_basis := by
      simp [List.sum_append]
      ring
    have ht'_le : ((u ++ v).map Prod.fst).sum ≤ (l1'.map Lot.shares).sum := by
      have hle : ((u ++ v).map Prod.fst).sum ≤
          ((u ++ v).map fun p => p.2.shares).sum := by
        refine List.sum_le_sum ?_
        intro q hq
        exact (hfeas' q hq).2
      have heq : ((u ++ v).map fun p => p.2.shares).sum =
          (l1'.map Lot.shares).sum := by
        have := (hperm'.map Lot.shares).sum_eq
        simpa [List.map_map, Function.comp] using this
      linarith
    have ih := hifo_max_consumed_cost l1' hsorted.of_cons hsh' (u ++ v)
      hperm' hfeas'
    have ht0 : 0 ≤ ((u ++ (m, a) :: v).map Prod.fst).sum := by
      rw [hsum_fst]
      linarith
    have hm_le_t : m ≤ ((u ++ (m, a) :: v).map Prod.fst).sum := by
      rw [hsum_fst]
      linarith
    have hg_le : m ≤ min a.shares ((u ++ (m, a) :: v).map Prod.fst).sum :=
      le_min hma hm_le_t
    have hlip := soldCost_lipschitz l1' a.cost_basis hcb hsh'
      (a := ((u ++ (m, a) :: v).map Prod.fst).sum - m)
      (b := ((u ++ (m, a) :: v).map Prod.fst).sum -
        min a.shares ((u ++ (m, a) :: v).map Prod.fst).sum)
      (by have := min_le_right a.shares ((u ++ (m, a) :: v).map Prod.fst).sum; linarith)
      (by linarith)
      (by rw [hsum_fst]; simpa using ht'_le)
    rw [soldCost_cons a l1' ht0 hsha]
    have hfix : ((u ++ (m, a) :: v).map Prod.fst).sum - m =
        ((u ++ v).map Prod.fst).sum := by
      rw [hsum_fst]
      ring
    rw [hfix] at hlip
    have hexp : a.cost_basis * (((u ++ v).map Prod.fst).sum -
        (((u ++ (m, a) :: v).map Prod.fst).sum -
          min a.shares ((u ++ (m, a) :: v).map Prod.fst).sum)) =
        min a.shares ((u ++ (m, a) :: v).map Prod.fst).sum * a.cost_basis -
          m * a.cost_basis := by
      rw [hsum_fst]
      ring
    rw [hexp] at hlip
    rw [hsum_cost]
    linarith

/-- C8: for the same request at the same price, a HIFO sell realizes a gain
less than or equal to the FIFO sell's, under the claim's side conditions
(non-negative lots, tie-free cost bases, position risen in value). -/
theorem hifo_gain_le_fifo_gain (pos : Position) (shares price : ℚ)
    (hsh : ∀ l ∈ pos.lots, 0 ≤ l.shares) (hs : 0 ≤ shares)
    (_hdistinct : pos.lots.Pairwise fun a b => a.cost_basis ≠ b.cost_basis)
    (_hrisen : ∀ l ∈ pos.lots, l.cost_basis ≤ price) :
    (Position.sell_shares pos shares price LotMethod.hifo).1.realized_gain ≤
      (Position.sell_shares pos shares price LotMethod.fifo).1.realized_gain := by
  rw [sell_shares_realized_gain, sell_shares_realized_gain]
  have hshH : ∀ l ∈ sortedLots LotMethod.hifo pos.lots, 0 ≤ l.shares :=
    fun l hl => hsh l (mem_sortedLots.mp hl)
  have hshF : ∀ l ∈ sortedLots LotMethod.fifo pos.lots, 0 ≤ l.shares :=
    fun l hl => hsh l (mem_sortedLots.mp hl)
  have hSH : soldShares (sortedLots LotMethod.hifo pos.lots) shares =
      min shares (pos.lots.map Lot.shares).sum := by
    rw [soldShares_eq_min _ hs hshH, sum_shares_sortedLots]
  have hSF : soldShares (sortedLots LotMethod.fifo pos.lots) shares =
      min shares (pos.lots.map Lot.shares).sum := by
    rw [soldShares_eq_min _ hs hshF, sum_shares_sortedLots]
  have hcost : soldCost (sortedLots LotMethod.fifo pos.lots) shares ≤
      soldCost (sortedLots LotMethod.hifo pos.lots) shares := by
    have hsortedH : List.Sorted hifoRel (sortedLots LotMethod.hifo pos.lots) :=
      List.sorted_insertionSort hifoRel pos.lots
    have hperm : ((consumedPairs (sortedLots LotMethod.fifo pos.lots)
        shares).map Prod.snd).Perm (sortedLots LotMethod.hifo pos.lots) := by
      rw [consumedPairs_map_snd]
      exact (sortedLots_perm LotMethod.fifo pos.lots).trans
        (sortedLots_perm LotMethod.hifo pos.lots).symm
    have hgreedy := hifo_max_consumed_cost (sortedLots LotMethod.hifo pos.lots)
      hsortedH hshH (consumedPairs (sortedLots LotMethod.fifo pos.lots) shares)
      hperm (consumedPairs_feasible _ shares hshF)
    rw [consumedPairs_cost, consumedPairs_amount, hSF] at hgreedy
    have hlast : soldCost (sortedLots LotMethod.hifo pos.lots)
        (min shares (pos.lots.map Lot.shares).sum) =
        soldCost (sortedLots LotMethod.hifo pos.lots) shares := by
      rcases le_total shares (pos.lots.map Lot.shares).sum with h | h
      · rw [min_eq_left h]
      · rw [min_eq_right h]
        have hsumH : ((sortedLots LotMethod.hifo pos.lots).map Lot.shares).sum =
            (pos.lots.map Lot.shares).sum := sum_shares_sortedLots _ _
        rw [soldCost_of_total_le _ hshH (by rw [hsumH]),
          soldCost_of_total_le _ hshH (by rw [hsumH]; exact h)]
    rw [hlast] at hgreedy
    exact hgreedy
  rw [hSH, hSF]
  linarith

/-- Witness for C8: lots `[(1sh@10),(1sh@20)]`, sell 1 share at price 30. -/
theorem hifo_gain_le_fifo_gain_witness :
    (Position.sell_shares ⟨"C", [⟨1, 10, some 0⟩, ⟨1, 20, some 1⟩]⟩ 1 30
        LotMethod.hifo).1.realized_gain ≤
      (Position.sell_shares ⟨"C", [⟨1, 10, some 0⟩, ⟨1, 20, some 1⟩]⟩ 1 30
        LotMethod.fifo).1.realized_gain :=
  hifo_gain_le_fifo_gain ⟨"C", [⟨1, 10, some 0⟩, ⟨1, 20, some 1⟩]⟩ 1 30
    (by decide) (by norm_num) (by decide) (by decide)

/-- An abstract calendar date: the code observes a date only through
subtraction in days, the calendar year, and the month, so a date is
embedded as those three projections. -/
structure SimDate where
  days : ℤ
  year : ℤ
  month : ℤ
deriving DecidableEq

/-- The market-data collaborator's `get_price(ticker, date)`. -/
abbrev PriceLookup := String → SimDate → ℚ

/-- `portfolio/portfolio.py`: cash, the ticker-keyed position map (insertion
ordered), and the outstanding margin debt. -/
structure Portfolio where
  cash : ℚ
  positions : List (String × Position)
  margin_balance : ℚ
deriving DecidableEq

/-- `Portfolio.market_value`: cash plus the sum of `shares × price` over all
positions. -/
def Portfolio.market_value (pf : Portfolio) (prices : PriceLookup)
    (date : SimDate) : ℚ :=
  pf.cash + (pf.positions.map fun q =>
    Position.total_shares q.2 * prices q.1 date).sum

/-- `Portfolio.equity_value`: market value minus margin debt. -/
def Portfolio.equity_value (pf : Portfolio) (prices : PriceLookup)
    (date : SimDate) : ℚ :=
  Portfolio.market_value pf prices date - pf.margin_balance

/-- `Portfolio.leverage_ratio`: `1.0` when no debt is outstanding, `+∞` when
debt is outstanding against non-positive equity, else assets over equity
(`⊤ : WithTop ℚ` plays `float("inf")`). -/
def Portfolio.leverage_ratio (pf : Portfolio) (prices : PriceLookup)
    (date : SimDate) : WithTop ℚ :=
  if pf.margin_balance ≤ 0 then (1 : WithTop ℚ)
  else if Portfolio.equity_value pf prices date ≤ 0 then ⊤
  else ((Portfolio.market_value pf prices date /
    Portfolio.equity_value pf prices date : ℚ) : WithTop ℚ)

/-- C3: the leverage invariant — exactly 1.0 with no debt, `+∞` with debt
against non-positive equity, else market value over equity; and the spec's
scenario cash 12000, no positions, margin 2000 has leverage 6/5 = 1.2. -/
theorem leverage_ratio_invariant (pf : Portfolio) (prices : PriceLookup)
    (date : SimDate) :
    (pf.margin_balance = 0 → Portfolio.leverage_ratio pf prices date = 1) ∧
    (0 < pf.margin_balance → Portfolio.equity_value pf prices date ≤ 0 →
      Portfolio.leverage_ratio pf prices date = ⊤) ∧
    (0 < pf.margin_balance → 0 < Portfolio.equity_value pf prices date →
      Portfolio.leverage_ratio pf prices date =
        ((Portfolio.market_value pf prices date /
          Portfolio.equity_value pf prices date : ℚ) : WithTop ℚ)) ∧
    Portfolio.leverage_ratio ⟨12000, [], 2000⟩ prices date =
      ((6 / 5 : ℚ) : WithTop ℚ) := by
  refine ⟨?_, ?_, ?_, ?_⟩
  · intro h
    simp [Portfolio.leverage_ratio, h]
  · intro h1 h2
    simp [Portfolio.leverage_ratio, not_le.mpr h1, h2]
  · intro h1 h2
    simp [Portfolio.leverage_ratio, not_le.mpr h1, not_le.mpr h2]
  · have hmv : Portfolio.market_value ⟨12000, [], 2000⟩ prices date = 12000 := by
      simp [Portfolio.market_value]
    have heq : Portfolio.equity_value ⟨12000, [], 2000⟩ prices date = 10000 := by
      unfold Portfolio.equity_value
      rw [hmv]
      norm_num
    rw [Portfolio.leverage_ratio, if_neg (by norm_num), if_neg (by rw [heq]; norm_num),
      hmv, heq]
    norm_num

/-- Witness for C3 at concrete portfolios and a concrete price lookup. -/
theorem leverage_ratio_invariant_witness :
    Portfolio.leverage_ratio ⟨500, [], 0⟩ (fun _ _ => 1) ⟨0, 2020, 1⟩ = 1 ∧
    Portfolio.leverage_ratio ⟨0, [], 100⟩ (fun _ _ => 1) ⟨0, 2020, 1⟩ = ⊤ ∧
    Portfolio.leverage_ratio ⟨12000, [], 2000⟩ (fun _ _ => 1) ⟨0, 2020, 1⟩ =
      ((6 / 5 : ℚ) : WithTop ℚ) :=
  ⟨(leverage_ratio_invariant ⟨500, [], 0⟩ (fun _ _ => 1) ⟨0, 2020, 1⟩).1 rfl,
    (leverage_ratio_invariant ⟨0, [], 100⟩ (fun _ _ => 1) ⟨0, 2020, 1⟩).2.1
      (by norm_num)
      (by simp [Portfolio.equity_value, Portfolio.market_value]),
    (leverage_ratio_invariant ⟨12000, [], 2000⟩ (fun _ _ => 1) ⟨0, 2020, 1⟩).2.2.2⟩

/-- `Portfolio.add_position(ticker, lot)`: append the lot to the ticker's
position, creating the position (at the end of the insertion-ordered map)
when absent. -/
def Portfolio.add_position (pf : Portfolio) (ticker : String) (lot : Lot) :
    Portfolio :=
  if (pf.positions.lookup ticker).isSome then
    { pf with positions := (pf.positions.map fun q =>
        if q.1 = ticker then (q.1, { q.2 with lots := q.2.lots ++ [lot] }) else q) }
  else
    { pf with positions := pf.positions ++ [(ticker, Position.mk ticker [lot])] }

/-- `Executor.borrow`: credit cash and debt equally. -/
def Executor.borrow (pf : Portfolio) (amount : ℚ) : Portfolio :=
  { pf with
    cash := pf.cash + amount
    margin_balance := pf.margin_balance + amount }

/-- `Executor.repay`: repay `min(amount, margin_balance, max(cash, 0))`,
unless that is below the `1e-9` guard in which case nothing happens;
returns the amount actually repaid. -/
def Executor.repay (pf : Portfolio) (amount : ℚ) : Portfolio × ℚ :=
  let repayable := min amount (min pf.margin_balance (max pf.cash 0))
  if repayable < 1 / 1000000000 then (pf, 0)
  else
    ({ pf with
      cash := pf.cash - repayable
      margin_balance := pf.margin_balance - repayable }, repayable)

/-- `Executor.buy`: convert cash to shares at the date's price (a zero price
raises `ZeroDivisionError`, modelled as `none`), decrement cash, append a
new lot carrying the price as cost basis and the date as purchase date. -/
def Executor.buy (prices : PriceLookup) (pf : Portfolio) (ticker : String)
    (euro_amount : ℚ) (date : SimDate) : Option Portfolio :=
  let price := prices ticker date
  if price = 0 then none
  else some (Portfolio.add_position { pf with cash := pf.cash - euro_amount }
    ticker ⟨euro_amount / price, price, some date.days⟩)

/-- `Executor.sell`: look the position up (`KeyError` as `none`), delegate
to `Position.sell_shares`, credit the proceeds to cash. -/
def Executor.sell (prices : PriceLookup) (pf : Portfolio) (ticker : String)
    (shares : ℚ) (date : SimDate) (method : LotMethod) :
    Option (Portfolio × SellResult) :=
  match pf.positions.lookup ticker with
  | none => none
  | some position =>
    let res := Position.sell_shares position shares (prices ticker date) method
    some ({ pf with
      cash := pf.cash + res.1.proceeds
      positions := (pf.positions.map fun q =>
        if q.1 = ticker then (q.1, res.2) else q) }, res.1)

theorem lookup_update_self (l : List (String × Position)) (t : String)
    (g : String × Position → Position) :
    ((l.map fun q => if q.1 = t then (q.1, g q) else q).lookup t) =
      (l.lookup t).map fun v => g (t, v) := by
  induction l with
  | nil => rfl
  | cons q rest ih =>
    obtain ⟨k, v⟩ := q
    by_cases hk : k = t
    · subst hk
      simp [List.lookup_cons]
    · have hbeq : (t == k) = false := beq_eq_false_iff_ne.mpr (Ne.symm hk)
      simp [List.lookup_cons, hk, hbeq, ih]

theorem lookup_update_ne (l : List (String × Position)) {t t' : String}
    (g : String × Position → Position) (h : t' ≠ t) :
    ((l.map fun q => if q.1 = t then (q.1, g q) else q).lookup t') =
      l.lookup t' := by
  induction l with
  | nil => rfl
  | cons q rest ih =>
    obtain ⟨k, v⟩ := q
    by_cases hk : k = t
    · subst hk
      have hbeq : (t' == k) = false := beq_eq_false_iff_ne.mpr h
      simp [List.lookup_cons, hbeq, ih]
    · by_cases hk' : k = t'
      · subst hk'
        simp [List.lookup_cons, hk]
      · have hbeq : (t' == k) = false := beq_eq_false_iff_ne.mpr (Ne.symm hk')
        simp [List.lookup_cons, hk, hbeq, ih]

theorem lookup_append_single_self (l : List (String × Position)) (t : String)
    (p : Position) (h : l.lookup t = none) :
    (l ++ [(t, p)]).lookup t = some p := by
  rw [List.lookup_append, h]
  simp

theorem lookup_append_single_ne (l : List (String × Position)) {t t' : String}
    (p : Position) (h : t' ≠ t) :
    (l ++ [(t, p)]).lookup t' = l.lookup t' := by
  rw [List.lookup_append]
  have hbeq : (t' == t) = false := beq_eq_false_iff_ne.mpr h
  simp [List.lookup_cons, hbeq]

/-- C10: `Executor.buy` divides by the looked-up price with no zero guard —
it raises exactly when the price is 0 — and otherwise decreases cash by the
spent amount, appends one lot of `amount/price` shares at cost basis
`price`, and leaves margin debt and all other positions unchanged. -/
theorem buy_zero_price_and_effect (prices : PriceLookup) (pf : Portfolio)
    (ticker : String) (euro_amount : ℚ) (date : SimDate) :
    (prices ticker date = 0 →
      Executor.buy prices pf ticker euro_amount date = none) ∧
    (prices ticker date ≠ 0 →
      ∃ pf', Executor.buy prices pf ticker euro_amount date = some pf' ∧
        pf'.cash = pf.cash - euro_amount ∧
        pf'.margin_balance = pf.margin_balance ∧
        pf'.positions.lookup ticker = some (
          match pf.positions.lookup ticker with
          | some pos => { pos with lots := pos.lots ++
              [⟨euro_amount / prices ticker date, prices ticker date,
                some date.days⟩] }
          | none => ⟨ticker, [⟨euro_amount / prices ticker date,
              prices ticker date, some date.days⟩]⟩) ∧
        ∀ t, t ≠ ticker → pf'.positions.lookup t = pf.positions.lookup t) := by
  constructor
  · intro h
    simp [Executor.buy, h]
  · intro h
    refine ⟨Portfolio.add_position { pf with cash := pf.cash - euro_amount }
      ticker ⟨euro_amount / prices ticker date, prices ticker date,
        some date.days⟩, by simp [Executor.buy, h], ?_⟩
    unfold Portfolio.add_position
    dsimp only
    cases hcase : pf.positions.lookup ticker with
    | some pos =>
      simp only [hcase, Option.isSome_some, if_true]
      refine ⟨by trivial, by trivial, ?_, ?_⟩
      · rw [lookup_update_self, hcase]
        rfl
      · intro t ht
        exact lookup_update_ne _ _ ht
    | none =>
      simp only [hcase, Option.isSome_none, Bool.false_eq_true, if_false]
      refine ⟨by trivial, by trivial, ?_, ?_⟩
      · exact lookup_append_single_self _ _ _ hcase
      · intro t ht
        exact lookup_append_single_ne _ _ ht

/-- Witness for C10: a zero-price buy raises, a buy at price 2 takes effect. -/
theorem buy_zero_price_and_effect_witness :
    Executor.buy (fun _ _ => 0) ⟨1000, [], 0⟩ "AAPL" 100 ⟨7, 2020, 3⟩ = none ∧
    ∃ pf', Executor.buy (fun _ _ => 2) ⟨1000, [], 0⟩ "AAPL" 100 ⟨7, 2020, 3⟩ =
        some pf' ∧
      pf'.cash = (Portfolio.mk 1000 [] 0).cash - 100 ∧
      pf'.margin_balance = (Portfolio.mk 1000 [] 0).margin_balance ∧
      pf'.positions.lookup "AAPL" = some (
        match (Portfolio.mk 1000 [] 0).positions.lookup "AAPL" with
        | some pos => { pos with lots := pos.lots ++
            [⟨(100 : ℚ) / (fun (_ : String) (_ : SimDate) => (2 : ℚ)) "AAPL"
                ⟨7, 2020, 3⟩,
              (fun (_ : String) (_ : SimDate) => (2 : ℚ)) "AAPL" ⟨7, 2020, 3⟩,
              some 7⟩] }
        | none => ⟨"AAPL", [⟨(100 : ℚ) / (fun (_ : String) (_ : SimDate) =>
            (2 : ℚ)) "AAPL" ⟨7, 2020, 3⟩,
          (fun (_ : String) (_ : SimDate) => (2 : ℚ)) "AAPL" ⟨7, 2020, 3⟩,
          some 7⟩]⟩) ∧
      ∀ t, t ≠ "AAPL" → pf'.positions.lookup t =
        (Portfolio.mk 1000 [] 0).positions.lookup t :=
  ⟨(buy_zero_price_and_effect (fun _ _ => 0) ⟨1000, [], 0⟩ "AAPL" 100
      ⟨7, 2020, 3⟩).1 rfl,
    (buy_zero_price_and_effect (fun _ _ => 2) ⟨1000, [], 0⟩ "AAPL" 100
      ⟨7, 2020, 3⟩).2 (by norm_num)⟩

/-- Counterexample to C6 as literally stated: with cash 1, margin 1 and a
repay request of `1e-10`, the claimed repaid amount
`min(amount, margin_balance, max(cash,0)) = 1e-10` is non-zero, yet `repay`
hits its `1e-9` guard, repays 0 and leaves the portfolio unchanged. -/
theorem repay_epsilon_counterexample :
    min ((1 : ℚ) / 10000000000) (min (Portfolio.mk 1 [] 1).margin_balance
      (max (Portfolio.mk 1 [] 1).cash 0)) ≠ 0 ∧
    Executor.repay ⟨1, [], 1⟩ (1 / 10000000000) = (⟨1, [], 1⟩, 0) := by
  constructor
  · norm_num
  · norm_num [Executor.repay]

/-- C6 (amended): `repay` reduces cash and margin debt by exactly
`r = min(amount, margin_balance, max(cash,0))` and returns `r`, except when
`r < 1e-9`, in which case it repays 0 and leaves the portfolio unchanged.
It never drives non-negative cash below 0, never makes non-negative margin
debt negative, repays 0 unchanged when cash is already ≤ 0, and the spec's
scenario cash 500 / margin 2000 / repay 2000 repays 500 leaving cash 0 and
margin 1500. -/
theorem repay_min_guarded (pf : Portfolio) (amount : ℚ) :
    (1 / 1000000000 ≤ min amount (min pf.margin_balance (max pf.cash 0)) →
      Executor.repay pf amount =
        ({ pf with
            cash := pf.cash - min amount (min pf.margin_balance (max pf.cash 0))
            margin_balance := pf.margin_balance -
              min amount (min pf.margin_balance (max pf.cash 0)) },
          min amount (min pf.margin_balance (max pf.cash 0)))) ∧
    (min amount (min pf.margin_balance (max pf.cash 0)) < 1 / 1000000000 →
      Executor.repay pf amount = (pf, 0)) ∧
    (0 ≤ pf.cash → 0 ≤ (Executor.repay pf amount).1.cash) ∧
    (0 ≤ pf.margin_balance → 0 ≤ (Executor.repay pf amount).1.margin_balance) ∧
    (pf.cash ≤ 0 → Executor.repay pf amount = (pf, 0)) ∧
    Executor.repay ⟨500, [], 2000⟩ 2000 = (⟨0, [], 1500⟩, 500) := by
  refine ⟨?_, ?_, ?_, ?_, ?_, ?_⟩
  · intro h
    rw [Executor.repay]
    simp only [if_neg (not_lt.mpr h)]
  · intro h
    rw [Executor.repay]
    simp only [if_pos h]
  · intro h
    rw [Executor.repay]
    by_cases hg : min amount (min pf.margin_balance (max pf.cash 0)) <
        1 / 1000000000
    · simp only [if_pos hg]
      exact h
    · simp only [if_neg hg]
      have h1 : min amount (min pf.margin_balance (max pf.cash 0)) ≤
          max pf.cash 0 :=
        le_trans (min_le_right _ _) (min_le_right _ _)
      have h2 : max pf.cash 0 = pf.cash := max_eq_left h
      show 0 ≤ pf.cash - min amount (min pf.margin_balance (max pf.cash 0))
      linarith [h1, h2.le, h2.ge]
  · intro h
    rw [Executor.repay]
    by_cases hg : min amount (min pf.margin_balance (max pf.cash 0)) <
        1 / 1000000000
    · simp only [if_pos hg]
      exact h
    · simp only [if_neg hg]
      have h1 : min amount (min pf.margin_balance (max pf.cash 0)) ≤
          pf.margin_balance :=
        le_trans (min_le_right _ _) (min_le_left _ _)
      show 0 ≤ pf.margin_balance -
        min amount (min pf.margin_balance (max pf.cash 0))
      linarith
  · intro h
    rw [Executor.repay]
    have hmax : max pf.cash 0 = 0 := max_eq_right h
    have h1 : min amount (min pf.margin_balance (max pf.cash 0)) ≤ 0 := by
      rw [hmax]
      exact le_trans (min_le_right _ _) (min_le_right _ _)
    simp only [if_pos (lt_of_le_of_lt h1 (show (0 : ℚ) < 1 / 1000000000 by
      norm_num))]
  · norm_num [Executor.repay]

/-- Witness for C6 (amended) at the spec's scenario and at negative cash. -/
theorem repay_min_guarded_witness :
    Executor.repay ⟨500, [], 2000⟩ 2000 =
      ({ Portfolio.mk 500 [] 2000 with
          cash := (Portfolio.mk 500 [] 2000).cash -
            min 2000 (min (Portfolio.mk 500 [] 2000).margin_balance
              (max (Portfolio.mk 500 [] 2000).cash 0))
          margin_balance := (Portfolio.mk 500 [] 2000).margin_balance -
            min 2000 (min (Portfolio.mk 500 [] 2000).margin_balance
              (max (Portfolio.mk 500 [] 2000).cash 0)) },
        min 2000 (min (Portfolio.mk 500 [] 2000).margin_balance
          (max (Portfolio.mk 500 [] 2000).cash 0))) ∧
    Executor.repay ⟨-5, [], 100⟩ 7 = (⟨-5, [], 100⟩, 0) :=
  ⟨(repay_min_guarded ⟨500, [], 2000⟩ 2000).1 (by norm_num),
    (repay_min_guarded ⟨-5, [], 100⟩ 7).2.2.2.2.1 (by norm_num)⟩

/-- The bracket walk of `TaxEngine.tax_due`: brackets are `(upper, rate)`
pairs, `none` standing for the mandatory final `float("inf")` limit.  Per
bracket the taxed band is `min(remaining, upper - prev)`; the loop breaks on
an empty band or an exhausted gain.  On an infinite bracket the band is the
whole remainder (`min(remaining, inf - prev) = remaining`), after which
`remaining` is 0 and the loop necessarily breaks. -/
def taxDueLoop : List (Option ℚ × ℚ) → ℚ → ℚ → ℚ → ℚ
  | [], _, tax, _ => tax
  | (none, rate) :: _, remaining, tax, _ =>
    if remaining ≤ 0 then tax else tax + remaining * rate
  | (some u, rate) :: rest, remaining, tax, prev_limit =>
    let band := min remaining (u - prev_limit)
    if band ≤ 0 then tax
    else if remaining - band ≤ 0 then tax + band * rate
    else taxDueLoop rest (remaining - band) (tax + band * rate) u

/-- `TaxEngine.tax_due(realized_gain)`: 0 for non-positive gains, otherwise
the progressive bracket walk. -/
def tax_due (brackets : List (Option ℚ × ℚ)) (realized_gain : ℚ) : ℚ :=
  if realized_gain ≤ 0 then 0 else taxDueLoop brackets realized_gain 0 0

/-- Modelled from the spec's words (§4.2), for the refinement half of C2:
"walks the bracket ladder: for each (upperLimit, rate) in order, taxed band
= min(remaining gain, upperLimit − previous upperLimit); accumulate
band×rate; stop when remaining gain exhausted". -/
def taxDueSpec : List (Option ℚ × ℚ) → ℚ → ℚ → ℚ
  | [], _, _ => 0
  | (upper, rate) :: rest, remaining, prev_limit =>
    if remaining ≤ 0 then 0
    else
      match upper with
      | none => remaining * rate
      | some u =>
        min remaining (u - prev_limit) * rate +
          taxDueSpec rest (remaining - min remaining (u - prev_limit)) u

/-- Well-formed bracket schedules: finite upper limits strictly increase
(past the given lower bound); everything after an infinite limit is dead. -/
def WFBrackets : ℚ → List (Option ℚ × ℚ) → Prop
  | _, [] => True
  | _, (none, _) :: _ => True
  | prev, (some u, _) :: rest => prev < u ∧ WFBrackets u rest

theorem taxDueSpec_nonpos (brackets : List (Option ℚ × ℚ)) (prev : ℚ)
    {remaining : ℚ} (h : remaining ≤ 0) :
    taxDueSpec brackets remaining prev = 0 := by
  cases brackets with
  | nil => rfl
  | cons b rest =>
    obtain ⟨upper, rate⟩ := b
    simp [taxDueSpec, h]

/-- The implementation's accumulator walk computes the spec's marginal
bracket sum, on well-formed brackets and a positive remaining gain. -/
theorem taxDueLoop_eq_spec :
    ∀ (brackets : List (Option ℚ × ℚ)) (prev tax : ℚ) {remaining : ℚ},
      0 < remaining → WFBrackets prev brackets →
      taxDueLoop brackets remaining tax prev =
        tax + taxDueSpec brackets remaining prev
  | [], _, tax, remaining, _, _ => by simp [taxDueLoop, taxDueSpec]
  | (none, rate) :: rest, prev, tax, remaining, hrem, _ => by
    simp [taxDueLoop, taxDueSpec, not_le.mpr hrem]
  | (some u, rate) :: rest, prev, tax, remaining, hrem, hwf => by
    obtain ⟨hu, hwf'⟩ := hwf
    have hband : 0 < min remaining (u - prev) := lt_min hrem (by linarith)
    rw [taxDueLoop]
    simp only [if_neg (not_le.mpr hband)]
    by_cases hrem' : remaining - min remaining (u - prev) ≤ 0
    · simp only [if_pos hrem']
      rw [taxDueSpec, if_neg (not_le.mpr hrem),
        taxDueSpec_nonpos rest u hrem']
      ring
    · push_neg at hrem'
      simp only [if_neg (not_le.mpr hrem')]
      rw [taxDueLoop_eq_spec rest u (tax + min remaining (u - prev) * rate)
        hrem' hwf', taxDueSpec, if_neg (not_le.mpr hrem)]
      ring

/-- C2: `tax_due` returns 0 on non-positive gains, on well-formed brackets
it equals the spec's marginal-bracket sum, and on the default Danish
schedule `[(10000, 27%), (∞, 42%)]` the tax on a 15000 gain is 4800. -/
theorem tax_due_marginal (brackets : List (Option ℚ × ℚ)) (g : ℚ) :
    (g ≤ 0 → tax_due brackets g = 0) ∧
    (0 < g → WFBrackets 0 brackets →
      tax_due brackets g = taxDueSpec brackets g 0) ∧
    tax_due [(some 10000, 27 / 100), (none, 42 / 100)] 15000 = 4800 := by
  refine ⟨?_, ?_, ?_⟩
  · intro h
    simp [tax_due, h]
  · intro hg hwf
    rw [tax_due, if_neg (not_le.mpr hg), taxDueLoop_eq_spec brackets 0 0 hg hwf,
      zero_add]
  · norm_num [tax_due, taxDueLoop]

/-- Witness for C2: the zero side at gain −3 and the refinement at the
spec's scenario. -/
theorem tax_due_marginal_witness :
    tax_due [(some 10000, 27 / 100), (none, 42 / 100)] (-3) = 0 ∧
    tax_due [(some 10000, 27 / 100), (none, 42 / 100)] 15000 =
      taxDueSpec [(some 10000, 27 / 100), (none, 42 / 100)] 15000 0 ∧
    tax_due [(some 10000, 27 / 100), (none, 42 / 100)] 15000 = 4800 :=
  ⟨(tax_due_marginal [(some 10000, 27 / 100), (none, 42 / 100)] (-3)).1
      (by norm_num),
    (tax_due_marginal [(some 10000, 27 / 100), (none, 42 / 100)] 15000).2.1
      (by norm_num) (by norm_num [WFBrackets]),
    (tax_due_marginal [(some 10000, 27 / 100), (none, 42 / 100)] 15000).2.2⟩

/-- The harvesting fields of `TaxConfig`. -/
structure HarvestCfg where
  harvest_enabled : Bool
  harvest_months : List ℤ
  min_loss_threshold : ℚ
  wash_sale_waiting_days : ℤ
  max_harvest_per_year : ℚ

/-- The mutable state of `TaxHarvestingEngine`: the per-year harvested
counter, the stored current year, and the wash-sale blacklist
(ticker → date of last harvest sell). -/
structure HarvestState where
  harvested_this_year : ℚ
  current_year : Option ℤ
  wash_sale_blacklist : String → Option SimDate

/-- The state `TaxHarvestingEngine.__init__` starts from. -/
def initHarvestState : HarvestState := ⟨0, none, fun _ => none⟩

/-- The blocked test on a raw blacklist (threaded through the harvest loop,
which updates the blacklist as it sells). -/
def washBlocked (waiting_days : ℤ) (blacklist : String → Option SimDate)
    (ticker : String) (date : SimDate) : Bool :=
  match blacklist ticker with
  | none => false
  | some d => decide (date.days - d.days < waiting_days)

/-- `TaxHarvestingEngine.is_wash_sale_blocked(ticker, date)`: true iff the
ticker has a recorded harvest sell and fewer than
`wash_sale_waiting_days` days have elapsed since. -/
def is_wash_sale_blocked (cfg : HarvestCfg) (st : HarvestState)
    (ticker : String) (date : SimDate) : Bool :=
  washBlocked cfg.wash_sale_waiting_days st.wash_sale_blacklist ticker date

/-- `TaxHarvestingEngine._reset_annual_if_needed(date)`. -/
def reset_annual_if_needed (st : HarvestState) (date : SimDate) : HarvestState :=
  if st.current_year = some date.year then st
  else { st with
    harvested_this_year := 0
    current_year := some date.year }

/-- `TaxHarvestingEngine._tax_saved(realized_loss, realized_gains_ytd)`. -/
def tax_saved_calc (brackets : List (Option ℚ × ℚ))
    (realized_loss realized_gains_ytd : ℚ) : ℚ :=
  tax_due brackets realized_gains_ytd -
    tax_due brackets (max 0 (realized_gains_ytd - realized_loss))

/-- One record of the list `TaxHarvestingEngine.harvest` returns. -/
structure HarvestRecord where
  date : SimDate
  ticker : String
  shares_sold : ℚ
  proceeds : ℚ
  realized_loss : ℚ
  tax_saved : ℚ

/-- The per-position loop of `TaxHarvestingEngine.harvest`, threading the
portfolio, the remaining offsettable gains, the annual harvested counter and
the wash-sale blacklist over the snapshot of `portfolio.positions.items()`;
`none` is a raised `KeyError` from the executor. -/
def harvestLoop (cfg : HarvestCfg) (brackets : List (Option ℚ × ℚ))
    (prices : PriceLookup) (date : SimDate) :
    List (String × Position) → Portfolio → ℚ → ℚ →
      (String → Option SimDate) →
      Option (Portfolio × ℚ × ℚ × (String → Option SimDate) ×
        List HarvestRecord)
  | [], pf, remaining_gains, harvested, blacklist =>
    some (pf, remaining_gains, harvested, blacklist, [])
  | (ticker, position) :: rest, pf, remaining_gains, harvested, blacklist =>
    if remaining_gains ≤ 0 then
      some (pf, remaining_gains, harvested, blacklist, [])
    else if cfg.max_harvest_per_year - harvested ≤ 0 then
      some (pf, remaining_gains, harvested, blacklist, [])
    else if Position.total_shares position < pruneEps then
      harvestLoop cfg brackets prices date rest pf remaining_gains harvested
        blacklist
    else if washBlocked cfg.wash_sale_waiting_days blacklist ticker date then
      harvestLoop cfg brackets prices date rest pf remaining_gains harvested
        blacklist
    else if -cfg.min_loss_threshold ≤ (position.lots.map fun l =>
        (prices ticker date - l.cost_basis) * l.shares).sum then
      harvestLoop cfg brackets prices date rest pf remaining_gains harvested
        blacklist
    else if min |(position.lots.map fun l =>
          (prices ticker date - l.cost_basis) * l.shares).sum|
        (min remaining_gains (cfg.max_harvest_per_year - harvested)) <
        cfg.min_loss_threshold then
      harvestLoop cfg brackets prices date rest pf remaining_gains harvested
        blacklist
    else if shares_for_target_loss position (prices ticker date)
        (min |(position.lots.map fun l =>
          (prices ticker date - l.cost_basis) * l.shares).sum|
        (min remaining_gains (cfg.max_harvest_per_year - harvested))) <
        1 / 1000000000 then
      harvestLoop cfg brackets prices date rest pf remaining_gains harvested
        blacklist
    else
      match Executor.sell prices pf ticker
          (shares_for_target_loss position (prices ticker date)
            (min |(position.lots.map fun l =>
              (prices ticker date - l.cost_basis) * l.shares).sum|
            (min remaining_gains (cfg.max_harvest_per_year - harvested))))
          date LotMethod.hifo with
      | none => none
      | some (pf', result) =>
        match harvestLoop cfg brackets prices date rest pf'
            (max (remaining_gains - |result.realized_gain|) 0)
            (harvested + |result.realized_gain|)
            (fun t => if t = ticker then some date else blacklist t) with
        | none => none
        | some (pf'', rg, hv, bl, recs) =>
          some (pf'', rg, hv, bl,
            ⟨date, ticker, result.shares_sold, result.proceeds,
              |result.realized_gain|,
              tax_saved_calc brackets |result.realized_gain|
                remaining_gains⟩ :: recs)

/-- `TaxHarvestingEngine.harvest(portfolio, market_data, date,
realized_gains_ytd)`: reset the annual counter on a year change, apply the
enabled / month / positive-gains gates, then run the per-position loop.
Returns the mutated portfolio, the new engine state and the harvest
records. -/
def harvest (cfg : HarvestCfg) (brackets : List (Option ℚ × ℚ))
    (prices : PriceLookup) (pf : Portfolio) (date : SimDate)
    (realized_gains_ytd : ℚ) (st : HarvestState) :
    Option (Portfolio × HarvestState × List HarvestRecord) :=
  let st1 := reset_annual_if_needed st date
  if ¬ cfg.harvest_enabled then some (pf, st1, [])
  else if date.month ∉ cfg.harvest_months then some (pf, st1, [])
  else if realized_gains_ytd ≤ 0 then some (pf, st1, [])
  else
    match harvestLoop cfg brackets prices date pf.positions pf
        realized_gains_ytd st1.harvested_this_year st1.wash_sale_blacklist with
    | none => none
    | some (pf', _, harvested', blacklist', recs) =>
      some (pf', { st1 with
        harvested_this_year := harvested'
        wash_sale_blacklist := blacklist' }, recs)

/-- Reduction of `Executor.sell` at a ticker known to be present. -/
theorem sell_eq_of_lookup (prices : PriceLookup) (pf : Portfolio)
    (ticker : String) (shares : ℚ) (date : SimDate) (method : LotMethod)
    {position : Position} (hl : pf.positions.lookup ticker = some position) :
    Executor.sell prices pf ticker shares date method = some
      ({ pf with
        cash := pf.cash + (Position.sell_shares position shares
          (prices ticker date) method).1.proceeds
        positions := (pf.positions.map fun q =>
          if q.1 = ticker then
            (q.1, (Position.sell_shares position shares (prices ticker date)
              method).2)
          else q) },
        (Position.sell_shares position shares (prices ticker date) method).1) := by
  unfold Executor.sell
  rw [hl]

/-- In a nodup-keyed association list every entry is found by `lookup`. -/
theorem lookup_of_mem_nodup :
    ∀ {l : List (String × Position)}, (l.map Prod.fst).Nodup →
      ∀ {p : String × Position}, p ∈ l → l.lookup p.1 = some p.2
  | [], _, _, hp => absurd hp (List.not_mem_nil _)
  | q :: rest, hn, p, hp => by
    obtain ⟨k, v⟩ := q
    rw [List.map_cons] at hn
    have hn' := List.nodup_cons.mp hn
    rcases List.mem_cons.mp hp with h | h
    · subst h
      exact List.lookup_cons_self
    · have hne : p.1 ≠ k := by
        intro heq
        have hmem : p.1 ∈ rest.map Prod.fst := List.mem_map.mpr ⟨p, h, rfl⟩
        exact hn'.1 (heq ▸ hmem)
      have hbeq : (p.1 == k) = false := beq_eq_false_iff_ne.mpr hne
      rw [List.lookup_cons]
      rw [hbeq]
      exact lookup_of_mem_nodup hn'.2 h

/-- Selling the `_shares_for_target_loss` share count under HIFO realizes
exactly `-(min target lossCapacity)`. -/
theorem sell_shares_for_target_gain (pos : Position) (price : ℚ) {target : ℚ}
    (hsh : ∀ l ∈ pos.lots, 0 ≤ l.shares) (ht : 0 < target) :
    (Position.sell_shares pos (shares_for_target_loss pos price target) price
      LotMethod.hifo).1.realized_gain =
    -(min target (lossCapacity pos.lots price)) := by
  have hsorted : List.Sorted hifoRel (sortedLots LotMethod.hifo pos.lots) :=
    List.sorted_insertionSort hifoRel pos.lots
  obtain ⟨P, S, hPS, hP, hS⟩ := sorted_loss_split price hsorted
  have hshP : ∀ l ∈ P, 0 ≤ l.shares := fun l hl =>
    hsh l (mem_sortedLots.mp (hPS ▸ List.mem_append_left S hl))
  have hshS : ∀ l ∈ S, 0 ≤ l.shares := fun l hl =>
    hsh l (mem_sortedLots.mp (hPS ▸ List.mem_append_right P hl))
  have hcap : lossCapacity pos.lots price = lossCapacity P price := by
    have h1 : lossCapacity (P ++ S) price = lossCapacity pos.lots price := by
      rw [← hPS]
      exact lossCapacity_perm (sortedLots_perm LotMethod.hifo pos.lots) price
    rw [← h1, lossCapacity_append, lossCapacity_of_gain S price hS, add_zero]
  have hwalk : shares_for_target_loss pos price target =
      sharesForLossLoop price (P ++ S) target := by
    rw [shares_for_target_loss,
      show pos.lots.insertionSort hifoRel = P ++ S from hPS]
  rw [sell_shares_realized_gain, hPS, hwalk,
    gain_of_sharesForLoss price P S hP hS hshP hshS ht, hcap]

/-- Invariant of the harvest loop: it succeeds on nodup-keyed well-formed
portfolios, the harvested counter grows by exactly the summed realized
losses of the returned records, and it never passes
`max_harvest_per_year`. -/
theorem harvestLoop_cap (cfg : HarvestCfg) (brackets : List (Option ℚ × ℚ))
    (prices : PriceLookup) (date : SimDate) :
    ∀ (snapshot : List (String × Position)) (pf : Portfolio)
      (remaining_gains harvested : ℚ) (blacklist : String → Option SimDate),
      (∀ p ∈ snapshot, pf.positions.lookup p.1 = some p.2) →
      (snapshot.map Prod.fst).Nodup →
      (∀ p ∈ snapshot, ∀ l ∈ p.2.lots, 0 ≤ l.shares) →
      ∃ pf' rg hv bl recs,
        harvestLoop cfg brackets prices date snapshot pf remaining_gains
          harvested blacklist = some (pf', rg, hv, bl, recs) ∧
        hv = harvested + (recs.map HarvestRecord.realized_loss).sum ∧
        hv ≤ max harvested cfg.max_harvest_per_year
  | [], pf, rg, hv, bl, _, _, _ =>
    ⟨pf, rg, hv, bl, [], rfl, by simp, le_max_left _ _⟩
  | (ticker, position) :: rest, pf, remaining_gains, harvested, blacklist,
      hinv, hnodup, hsh => by
    have hinv' : ∀ p ∈ rest, pf.positions.lookup p.1 = some p.2 :=
      fun p hp => hinv p (List.mem_cons_of_mem _ hp)
    have hnodup2 : (ticker :: rest.map Prod.fst).Nodup := hnodup
    have hnodup_parts := List.nodup_cons.mp hnodup2
    have hsh' : ∀ p ∈ rest, ∀ l ∈ p.2.lots, 0 ≤ l.shares :=
      fun p hp => hsh p (List.mem_cons_of_mem _ hp)
    have hskip := harvestLoop_cap cfg brackets prices date rest pf
      remaining_gains harvested blacklist hinv' hnodup_parts.2 hsh'
    rw [harvestLoop]
    by_cases h1 : remaining_gains ≤ 0
    · rw [if_pos h1]
      exact ⟨pf, _, harvested, blacklist, [], rfl, by simp, le_max_left _ _⟩
    rw [if_neg h1]
    by_cases h2 : cfg.max_harvest_per_year - harvested ≤ 0
    · rw [if_pos h2]
      exact ⟨pf, _, harvested, blacklist, [], rfl, by simp, le_max_left _ _⟩
    rw [if_neg h2]
    by_cases h3 : Position.total_shares position < pruneEps
    · rw [if_pos h3]
      exact hskip
    rw [if_neg h3]
    by_cases h4 : washBlocked cfg.wash_sale_waiting_days blacklist ticker date
      = true
    · rw [if_pos h4]
      exact hskip
    rw [if_neg h4]
    by_cases h5 : -cfg.min_loss_threshold ≤ (position.lots.map fun l =>
        (prices ticker date - l.cost_basis) * l.shares).sum
    · rw [if_pos h5]
      exact hskip
    rw [if_neg h5]
    set ltH := min |(position.lots.map fun l =>
        (prices ticker date - l.cost_basis) * l.shares).sum|
      (min remaining_gains (cfg.max_harvest_per_year - harvested)) with hltH
    by_cases h6 : ltH < cfg.min_loss_threshold
    · rw [if_pos h6]
      exact hskip
    rw [if_neg h6]
    by_cases h7 : shares_for_target_loss position (prices ticker date) ltH <
      1 / 1000000000
    · rw [if_pos h7]
      exact hskip
    rw [if_neg h7]
    have hpos_sh : ∀ l ∈ position.lots, 0 ≤ l.shares :=
      hsh (ticker, position) (List.mem_cons_self _ _)
    have hlt0 : 0 ≤ ltH := by
      push_neg at h1 h2
      exact le_min (abs_nonneg _) (le_min h1.le (by linarith))
    have hlt : 0 < ltH := by
      rcases eq_or_lt_of_le hlt0 with heq | h
      · exfalso
        apply h7
        rw [shares_for_target_loss, ← heq,
          sharesForLossLoop_zero (prices ticker date) _
            (fun l hl => hpos_sh l (List.mem_insertionSort hifoRel |>.mp hl))]
        norm_num
      · exact h
    have hgain := sell_shares_for_target_gain position (prices ticker date)
      hpos_sh hlt
    have hlook : pf.positions.lookup ticker = some position :=
      hinv (ticker, position) (List.mem_cons_self _ _)
    rw [sell_eq_of_lookup prices pf ticker
      (shares_for_target_loss position (prices ticker date) ltH) date
      LotMethod.hifo hlook]
    dsimp only
    have hrl_room : |(Position.sell_shares position
        (shares_for_target_loss position (prices ticker date) ltH)
        (prices ticker date) LotMethod.hifo).1.realized_gain| ≤
        cfg.max_harvest_per_year - harvested := by
      rw [hgain, abs_neg, abs_of_nonneg (le_min hlt.le
        (lossCapacity_nonneg _ _ hpos_sh))]
      exact le_trans (min_le_left _ _)
        (le_trans (min_le_right _ _) (min_le_right _ _))
    have hne : ∀ p ∈ rest, p.1 ≠ ticker := by
      intro p hp heq
      exact hnodup_parts.1 (heq ▸ List.mem_map.mpr ⟨p, hp, rfl⟩)
    have hinv2 : ∀ p ∈ rest,
        ((pf.positions.map fun q =>
          if q.1 = ticker then
            (q.1, (Position.sell_shares position
              (shares_for_target_loss position (prices ticker date) ltH)
              (prices ticker date) LotMethod.hifo).2)
          else q).lookup p.1) = some p.2 :=
      fun p hp => (lookup_update_ne pf.positions _ (hne p hp)).trans
        (hinv' p hp)
    obtain ⟨pf'', rg', hv', bl', recs', hrun, hsum, hle⟩ :=
      harvestLoop_cap cfg brackets prices date rest
        ({ pf with
          cash := pf.cash + (Position.sell_shares position
            (shares_for_target_loss position (prices ticker date) ltH)
            (prices ticker date) LotMethod.hifo).1.proceeds
          positions := (pf.positions.map fun q =>
            if q.1 = ticker then
              (q.1, (Position.sell_shares position
                (shares_for_target_loss position (prices ticker date) ltH)
                (prices ticker date) LotMethod.hifo).2)
            else q) })
        (max (remaining_gains - |(Position.sell_shares position
          (shares_for_target_loss position (prices ticker date) ltH)
          (prices ticker date) LotMethod.hifo).1.realized_gain|) 0)
        (harvested + |(Position.sell_shares position
          (shares_for_target_loss position (prices ticker date) ltH)
          (prices ticker date) LotMethod.hifo).1.realized_gain|)
        (fun t => if t = ticker then some date else blacklist t)
        hinv2 hnodup_parts.2 hsh'
    rw [hrun]
    refine ⟨pf'', rg', hv', bl', _ :: recs', rfl, ?_, ?_⟩
    · rw [hsum]
      simp only [List.map_cons, List.sum_cons]
      ring
    · have h9 : harvested + |(Position.sell_shares position
          (shares_for_target_loss position (prices ticker date) ltH)
          (prices ticker date) LotMethod.hifo).1.realized_gain| ≤
          cfg.max_harvest_per_year := by linarith
      calc hv' ≤ max (harvested + |(Position.sell_shares position
            (shares_for_target_loss position (prices ticker date) ltH)
            (prices ticker date) LotMethod.hifo).1.realized_gain|)
            cfg.max_harvest_per_year := hle
        _ = cfg.max_harvest_per_year := max_eq_right h9
        _ ≤ max harvested cfg.max_harvest_per_year := le_max_right _ _

/-- Well-formedness of a portfolio per the spec's data model: tickers are
unique (a Python dict) and lot share counts are non-negative. -/
def Portfolio.WF (pf : Portfolio) : Prop :=
  (pf.positions.map Prod.fst).Nodup ∧
    ∀ p ∈ pf.positions, ∀ l ∈ p.2.lots, 0 ≤ l.shares

theorem reset_current_year (st : HarvestState) (date : SimDate) :
    (reset_annual_if_needed st date).current_year = some date.year := by
  unfold reset_annual_if_needed
  by_cases h : st.current_year = some date.year
  · rw [if_pos h]
    exact h
  · rw [if_neg h]

/-- The annual counter resets exactly when the stored year differs from the
call date's year. -/
theorem reset_harvested (st : HarvestState) (date : SimDate) :
    (reset_annual_if_needed st date).harvested_this_year =
      if st.current_year = some date.year then st.harvested_this_year
      else 0 := by
  unfold reset_annual_if_needed
  by_cases h : st.current_year = some date.year
  · rw [if_pos h, if_pos h]
  · rw [if_neg h, if_neg h]

/-- A single `harvest` call on a well-formed portfolio succeeds, adds the
summed realized losses of its records to the (possibly year-reset) annual
counter without passing the cap, and stores the call's year. -/
theorem harvest_step (cfg : HarvestCfg) (brackets : List (Option ℚ × ℚ))
    (prices : PriceLookup) (pf : Portfolio) (date : SimDate) (ytd : ℚ)
    (st : HarvestState) (hwf : Portfolio.WF pf) :
    ∃ pf' st' recs,
      harvest cfg brackets prices pf date ytd st = some (pf', st', recs) ∧
      st'.harvested_this_year =
        (reset_annual_if_needed st date).harvested_this_year +
          (recs.map HarvestRecord.realized_loss).sum ∧
      st'.harvested_this_year ≤
        max (reset_annual_if_needed st date).harvested_this_year
          cfg.max_harvest_per_year ∧
      st'.current_year = some date.year := by
  unfold harvest
  by_cases hg1 : ¬ cfg.harvest_enabled
  · rw [if_pos hg1]
    exact ⟨pf, _, [], rfl, by simp, le_max_left _ _, reset_current_year st date⟩
  rw [if_neg hg1]
  by_cases hg2 : date.month ∉ cfg.harvest_months
  · rw [if_pos hg2]
    exact ⟨pf, _, [], rfl, by simp, le_max_left _ _, reset_current_year st date⟩
  rw [if_neg hg2]
  by_cases hg3 : ytd ≤ 0
  · rw [if_pos hg3]
    exact ⟨pf, _, [], rfl, by simp, le_max_left _ _, reset_current_year st date⟩
  rw [if_neg hg3]
  obtain ⟨pf', rg, hv, bl, recs, hrun, hsum, hle⟩ :=
    harvestLoop_cap cfg brackets prices date pf.positions pf ytd
      (reset_annual_if_needed st date).harvested_this_year
      (reset_annual_if_needed st date).wash_sale_blacklist
      (fun p hp => lookup_of_mem_nodup hwf.1 hp) hwf.1 hwf.2
  rw [hrun]
  exact ⟨pf', _, recs, rfl, hsum, hle, reset_current_year st date⟩

/-- One harvest call's caller-chosen inputs. -/
structure HarvestCall where
  pf : Portfolio
  prices : PriceLookup
  date : SimDate
  ytd : ℚ

/-- Run a sequence of `harvest` calls against the engine state, collecting
each call's records. -/
def runHarvestCalls (cfg : HarvestCfg) (brackets : List (Option ℚ × ℚ)) :
    List HarvestCall → HarvestState →
      Option (HarvestState × List (List HarvestRecord))
  | [], st => some (st, [])
  | c :: rest, st =>
    match harvest cfg brackets c.prices c.pf c.date c.ytd st with
    | none => none
    | some (_, st', recs) =>
      match runHarvestCalls cfg brackets rest st' with
      | none => none
      | some (stF, recss) => some (stF, recs :: recss)

/-- Over any sequence of harvest calls whose dates share one calendar year,
the annual counter tracks the total realized losses and stays within the
cap. -/
theorem runHarvestCalls_cap (cfg : HarvestCfg) (brackets : List (Option ℚ × ℚ))
    (Y : ℤ) :
    ∀ (calls : List HarvestCall) (st : HarvestState),
      (∀ c ∈ calls, c.date.year = Y ∧ Portfolio.WF c.pf) →
      (st.current_year = some Y ∨ st.harvested_this_year = 0) →
      ∃ stF recss,
        runHarvestCalls cfg brackets calls st = some (stF, recss) ∧
        stF.harvested_this_year =
          (if st.current_year = some Y then st.harvested_this_year else 0) +
            (recss.map fun recs =>
              (recs.map HarvestRecord.realized_loss).sum).sum ∧
        stF.harvested_this_year ≤
          max (if st.current_year = some Y then st.harvested_this_year else 0)
            cfg.max_harvest_per_year
  | [], st, _, hst => by
    refine ⟨st, [], rfl, ?_, ?_⟩
    · rcases hst with h | h
      · rw [if_pos h]
        simp
      · rw [h]
        simp
    · rcases hst with h | h
      · rw [if_pos h]
        exact le_max_left _ _
      · have h0 : (if st.current_year = some Y then st.harvested_this_year
            else 0) = 0 := by
          by_cases hc : st.current_year = some Y
          · rw [if_pos hc, h]
          · rw [if_neg hc]
        rw [h0, h]
        exact le_max_left _ _
  | c :: rest, st, hcalls, hst => by
    obtain ⟨hY, hwf⟩ := hcalls c (List.mem_cons_self _ _)
    obtain ⟨pf', st', recs, hharv, hsum1, hle1, hyear⟩ :=
      harvest_step cfg brackets c.prices c.pf c.date c.ytd st hwf
    have hreset : (reset_annual_if_needed st c.date).harvested_this_year =
        if st.current_year = some Y then st.harvested_this_year else 0 := by
      rw [reset_harvested, hY]
    obtain ⟨stF, recss, hrunF, hsumF, hleF⟩ :=
      runHarvestCalls_cap cfg brackets Y rest st'
        (fun d hd => hcalls d (List.mem_cons_of_mem _ hd))
        (Or.inl (by rw [hyear, hY]))
    rw [runHarvestCalls, hharv]
    dsimp only
    rw [hrunF]
    refine ⟨stF, recs :: recss, rfl, ?_, ?_⟩
    · have hcur : st'.current_year = some Y := by rw [hyear, hY]
      rw [hsumF, if_pos hcur, hsum1, hreset]
      simp only [List.map_cons, List.sum_cons]
      ring
    · have hcur : st'.current_year = some Y := by rw [hyear, hY]
      rw [if_pos hcur] at hsumF hleF
      have h1 : st'.harvested_this_year ≤
          max (if st.current_year = some Y then st.harvested_this_year else 0)
            cfg.max_harvest_per_year := by
        rw [hsum1, hreset] at hle1 ⊢
        exact hle1
      calc stF.harvested_this_year ≤
          max st'.harvested_this_year cfg.max_harvest_per_year := hleF
        _ ≤ max (if st.current_year = some Y then st.harvested_this_year
            else 0) cfg.max_harvest_per_year :=
          max_le (le_trans h1 le_rfl) (le_max_right _ _)

/-- C4: starting from a fresh engine, over every sequence of harvest calls
on well-formed portfolios whose dates all lie in one calendar year, the
summed `realized_loss` of all records produced never exceeds
`max_harvest_per_year`; and the per-year counter resets exactly when the
stored simulated year differs from the call date's year. -/
theorem annual_harvest_cap (cfg : HarvestCfg) (brackets : List (Option ℚ × ℚ))
    (Y : ℤ) (calls : List HarvestCall)
    (hcap : 0 ≤ cfg.max_harvest_per_year)
    (hcalls : ∀ c ∈ calls, c.date.year = Y ∧ Portfolio.WF c.pf) :
    (∃ stF recss,
      runHarvestCalls cfg brackets calls initHarvestState = some (stF, recss) ∧
      (recss.map fun recs =>
        (recs.map HarvestRecord.realized_loss).sum).sum ≤
        cfg.max_harvest_per_year) ∧
    ∀ (st : HarvestState) (date : SimDate),
      (reset_annual_if_needed st date).harvested_this_year =
        if st.current_year = some date.year then st.harvested_this_year
        else 0 := by
  constructor
  · obtain ⟨stF, recss, hrun, hsum, hle⟩ :=
      runHarvestCalls_cap cfg brackets Y calls initHarvestState hcalls
        (Or.inr rfl)
    have hif : (if initHarvestState.current_year = some Y then
        initHarvestState.harvested_this_year else 0) = 0 := by
      rw [if_neg (by simp [initHarvestState])]
    rw [hif] at hsum hle
    refine ⟨stF, recss, hrun, ?_⟩
    rw [max_eq_right hcap] at hle
    linarith [hsum.ge, hsum.le]
  · exact reset_harvested

/-- Witness for C4: a November harvest call on a one-position portfolio in
2020 with cap 1000. -/
theorem annual_harvest_cap_witness :
    (∃ stF recss,
      runHarvestCalls ⟨true, [11], 50, 30, 1000⟩
        [(some 10000, 27 / 100), (none, 42 / 100)]
        [⟨⟨1000, [("A", ⟨"A", [⟨10, 20, some 0⟩]⟩)], 0⟩, fun _ _ => 1,
          ⟨0, 2020, 11⟩, 100⟩] initHarvestState = some (stF, recss) ∧
      (recss.map fun recs =>
        (recs.map HarvestRecord.realized_loss).sum).sum ≤ 1000) ∧
    ∀ (st : HarvestState) (date : SimDate),
      (reset_annual_if_needed st date).harvested_this_year =
        if st.current_year = some date.year then st.harvested_this_year
        else 0 :=
  annual_harvest_cap ⟨true, [11], 50, 30, 1000⟩
    [(some 10000, 27 / 100), (none, 42 / 100)]
    2020
    [⟨⟨1000, [("A", ⟨"A", [⟨10, 20, some 0⟩]⟩)], 0⟩, fun _ _ => 1,
      ⟨0, 2020, 11⟩, 100⟩]
    (by norm_num)
    (by
      intro c hc
      rw [List.mem_singleton] at hc
      subst hc
      exact ⟨rfl, by constructor <;> decide⟩)

/-- Counterexample to C5 as literally stated: with a harvest recorded on
day 10 and a 5-day waiting period, the characterization
"blocked exactly when 0 ≤ d − D < waitingDays" says day 9 is not blocked
(d − D = −1 fails the lower bound), yet the code reports it blocked
(−1 < 5). -/
theorem wash_sale_counterexample :
    is_wash_sale_blocked ⟨true, [11], 50, 5, 1000⟩
      ⟨0, none, fun t => if t = "AAPL" then some ⟨10, 2020, 1⟩ else none⟩
      "AAPL" ⟨9, 2020, 1⟩ = true ∧
    ¬ (0 ≤ (⟨9, 2020, 1⟩ : SimDate).days - (⟨10, 2020, 1⟩ : SimDate).days ∧
      (⟨9, 2020, 1⟩ : SimDate).days - (⟨10, 2020, 1⟩ : SimDate).days < 5) := by
  constructor
  · decide
  · decide

/-- C5 (amended): `is_wash_sale_blocked(ticker, d)` is true iff a harvest
date `D` is recorded for the ticker and `(d − D).days < waitingDays` — with
no lower bound, so the window over days `d ≥ D` is exactly
`0 ≤ d − D < waitingDays` (blocked for `waitingDays − 1` days after `D`,
unblocked from `D + waitingDays` on), while days strictly before `D`
(never queried by a forward-running simulation) also report blocked; it is
false for any ticker never harvested. -/
theorem wash_sale_window (cfg : HarvestCfg) (st : HarvestState)
    (ticker : String) (date : SimDate) :
    (∀ D, st.wash_sale_blacklist ticker = some D →
      (is_wash_sale_blocked cfg st ticker date = true ↔
        date.days - D.days < cfg.wash_sale_waiting_days)) ∧
    (st.wash_sale_blacklist ticker = none →
      is_wash_sale_blocked cfg st ticker date = false) := by
  constructor
  · intro D hD
    rw [is_wash_sale_blocked, washBlocked, hD]
    exact decide_eq_true_iff
  · intro hD
    rw [is_wash_sale_blocked, washBlocked, hD]

/-- Witness for C5 (amended): blocked two days after a harvest with a 5-day
window; a never-harvested ticker is not blocked. -/
theorem wash_sale_window_witness :
    (is_wash_sale_blocked ⟨true, [11], 50, 5, 1000⟩
        ⟨0, none, fun t => if t = "AAPL" then some ⟨10, 2020, 1⟩ else none⟩
        "AAPL" ⟨12, 2020, 1⟩ = true ↔
      (⟨12, 2020, 1⟩ : SimDate).days - (⟨10, 2020, 1⟩ : SimDate).days < 5) ∧
    is_wash_sale_blocked ⟨true, [11], 50, 5, 1000⟩
      ⟨0, none, fun t => if t = "AAPL" then some ⟨10, 2020, 1⟩ else none⟩
      "MSFT" ⟨12, 2020, 1⟩ = false :=
  ⟨(wash_sale_window ⟨true, [11], 50, 5, 1000⟩
      ⟨0, none, fun t => if t = "AAPL" then some ⟨10, 2020, 1⟩ else none⟩
      "AAPL" ⟨12, 2020, 1⟩).1 ⟨10, 2020, 1⟩ (by decide),
    (wash_sale_window ⟨true, [11], 50, 5, 1000⟩
      ⟨0, none, fun t => if t = "AAPL" then some ⟨10, 2020, 1⟩ else none⟩
      "MSFT" ⟨12, 2020, 1⟩).2 (by decide)⟩

/-- `config.MarginConfig`. -/
structure MarginCfg where
  enabled : Bool
  max_leverage : ℚ
  annual_rate : ℚ
  conviction_threshold : ℚ
  expected_hold_days : ℤ

/-- `MarginCostModel.total_cost(amount, annual_rate, days)`: simple
calendar-day interest. -/
def total_cost (amount annual_rate : ℚ) (days : ℤ) : ℚ :=
  amount * annual_rate * days / 365

/-- `DecisionEngine.should_borrow_instead_of_sell`: false when margin is
absent/disabled, no margin cost model is configured, or the tax cost of
selling is non-positive; otherwise borrow iff the interest cost of the
expected holding horizon is strictly below the tax cost. -/
def should_borrow_instead_of_sell (brackets : List (Option ℚ × ℚ))
    (margin_cfg : Option MarginCfg) (has_margin_cost_model : Bool)
    (unrealized_gain sell_amount : ℚ) (expected_hold_days : ℤ) : Bool :=
  match margin_cfg with
  | none => false
  | some mc =>
    if ¬ mc.enabled then false
    else if ¬ has_margin_cost_model then false
    else if tax_due brackets unrealized_gain ≤ 0 then false
    else decide (total_cost sell_amount mc.annual_rate expected_hold_days <
      tax_due brackets unrealized_gain)

/-- The outcome of the optimizer's `problem.solve()` call (the numerical QP
solver is an external collaborator): either the call raised, or it finished
with a status string and the value of the weight variable (`none` when the
solver left it undefined). -/
inductive SolverOutcome where
  | raised
  | finished (status : String) (value : Option (List ℚ))

/-- `FactorReplicationOptimizer.optimize`'s control flow: `None` ("no
solution") on an empty candidate set, on a solver exception, on a status
other than optimal / optimal_inaccurate, or on an undefined weight vector;
otherwise ticker-keyed weights, scaled by the budget when one is given. -/
def optimize (tickers : List String) (solver : SolverOutcome)
    (budget : Option ℚ) : Option (List (String × ℚ)) :=
  if tickers.length = 0 then none
  else
    match solver with
    | .raised => none
    | .finished status value =>
      if status ≠ "optimal" ∧ status ≠ "optimal_inaccurate" then none
      else
        match value with
        | none => none
        | some ws =>
          match budget with
          | some b => some ((tickers.zip ws).map fun p => (p.1, p.2 * b))
          | none => some (tickers.zip ws)

/-- An entry of the strategy's realized-gains log. -/
structure RealizedGainRec where
  date : SimDate
  ticker : String
  realized_gain : ℚ
  proceeds : ℚ
deriving DecidableEq

/-- The sell-or-borrow loop of `_rebalance_portfolio` over the held
positions: for each position whose value exceeds its target allocation,
either borrow up to the leverage headroom (when the decision engine deems
it cheaper than the capital-gains tax) or sell the excess; `none` marks a
raised exception (zero price, missing ticker). -/
def rebalanceSellLoop (brackets : List (Option ℚ × ℚ))
    (margin_cfg : Option MarginCfg) (has_margin_cost_model : Bool)
    (prices : PriceLookup) (date : SimDate)
    (allocations : List (String × ℚ)) :
    List (String × Position) → Portfolio →
      Option (Portfolio × List RealizedGainRec)
  | [], pf => some (pf, [])
  | (ticker, position) :: rest, pf =>
    if Position.total_shares position * prices ticker date >
        ((allocations.lookup ticker).getD 0) + 1 / 1000000 then
      if should_borrow_instead_of_sell brackets margin_cfg
          has_margin_cost_model
          (max ((position.lots.map fun l =>
            (prices ticker date - l.cost_basis) * l.shares).sum) 0)
          (Position.total_shares position * prices ticker date -
            (allocations.lookup ticker).getD 0)
          (match margin_cfg with
            | some mc => mc.expected_hold_days
            | none => 90) then
        match margin_cfg with
        | none => none
        | some mc =>
          rebalanceSellLoop brackets margin_cfg has_margin_cost_model prices
            date allocations rest
            (if min (Position.total_shares position * prices ticker date -
                  (allocations.lookup ticker).getD 0)
                (max (Portfolio.equity_value pf prices date *
                  (mc.max_leverage - 1) - pf.margin_balance) 0) > 1 then
              Executor.borrow pf
                (min (Position.total_shares position * prices ticker date -
                  (allocations.lookup ticker).getD 0)
                (max (Portfolio.equity_value pf prices date *
                  (mc.max_leverage - 1) - pf.margin_balance) 0))
            else pf)
      else
        if prices ticker date = 0 then none
        else
          match Executor.sell prices pf ticker
              ((Position.total_shares position * prices ticker date -
                (allocations.lookup ticker).getD 0) / prices ticker date)
              date LotMethod.hifo with
          | none => none
          | some (pf', result) =>
            match rebalanceSellLoop brackets margin_cfg has_margin_cost_model
                prices date allocations rest pf' with
            | none => none
            | some (pf'', recs) =>
              some (pf'', ⟨date, ticker, result.realized_gain,
                result.proceeds⟩ :: recs)
    else
      rebalanceSellLoop brackets margin_cfg has_margin_cost_model prices date
        allocations rest pf

/-- The buy loop of `_rebalance_portfolio` over the eligible universe: skip
wash-sale-blocked tickers, then buy the lesser of the shortfall and the
available cash when above `1e-6`. -/
def rebalanceBuyLoop (harvester : Option (HarvestCfg × HarvestState))
    (prices : PriceLookup) (date : SimDate)
    (allocations : List (String × ℚ)) :
    List String → Portfolio → Option Portfolio
  | [], pf => some pf
  | ticker :: rest, pf =>
    if (match harvester with
        | some (hcfg, hst) => is_wash_sale_blocked hcfg hst ticker date
        | none => false) then
      rebalanceBuyLoop harvester prices date allocations rest pf
    else
      if min ((allocations.lookup ticker).getD 0 -
          (match pf.positions.lookup ticker with
            | some pos => Position.total_shares pos * prices ticker date
            | none => 0)) pf.cash > 1 / 1000000 then
        match Executor.buy prices pf ticker
            (min ((allocations.lookup ticker).getD 0 -
              (match pf.positions.lookup ticker with
                | some pos => Position.total_shares pos * prices ticker date
                | none => 0)) pf.cash) date with
        | none => none
        | some pf' =>
          rebalanceBuyLoop harvester prices date allocations rest pf'
      else rebalanceBuyLoop harvester prices date allocations rest pf

/-- `FactorReplicationStrategy._rebalance_portfolio`: obtain target
allocations — from the optimizer when one is configured, else equal weight
across the universe — then run the sell/borrow loop over held positions and
the buy loop over the universe.  When the configured optimizer returns
`None`, Python's `target_allocations` is `None` and the first
`target_allocations.get(...)` raises `AttributeError`; the step completes
(as a no-op) only when neither loop reaches a dereference — there is no
equal-weight fallback on this path.  With no optimizer and an empty
universe the equal-weight division raises `ZeroDivisionError`. -/
def rebalance_portfolio (brackets : List (Option ℚ × ℚ))
    (margin_cfg : Option MarginCfg) (has_margin_cost_model : Bool)
    (harvester : Option (HarvestCfg × HarvestState))
    (has_optimizer : Bool) (solver : SolverOutcome)
    (prices : PriceLookup) (date : SimDate) (univ : List String)
    (pf : Portfolio) : Option (Portfolio × List RealizedGainRec) :=
  if has_optimizer then
    match optimize univ solver
        (some (Portfolio.market_value pf prices date)) with
    | some allocations =>
      match rebalanceSellLoop brackets margin_cfg has_margin_cost_model
          prices date allocations pf.positions pf with
      | none => none
      | some (pf1, recs) =>
        match rebalanceBuyLoop harvester prices date allocations univ
            pf1 with
        | none => none
        | some pf2 => some (pf2, recs)
    | none =>
      if pf.positions.isEmpty && univ.all (fun t =>
          match harvester with
          | some (hcfg, hst) => is_wash_sale_blocked hcfg hst t date
          | none => false) then
        some (pf, [])
      else none
  else
    if univ.length = 0 then none
    else
      match rebalanceSellLoop brackets margin_cfg has_margin_cost_model
          prices date (univ.map fun t =>
            (t, Portfolio.market_value pf prices date / univ.length))
          pf.positions pf with
      | none => none
      | some (pf1, recs) =>
        match rebalanceBuyLoop harvester prices date (univ.map fun t =>
            (t, Portfolio.market_value pf prices date / univ.length))
          univ pf1 with
        | none => none
        | some pf2 => some (pf2, recs)

/-- C1 (evaluating the code at a failing input): with an optimizer
configured, an empty candidate universe and one held position, `optimize`
returns "no solution" and `_rebalance_portfolio` raises (`AttributeError`
on `None.get`) instead of completing with equal-weight targets — the
equal-weight fallback the spec promises does not exist on this path. -/
theorem rebalance_no_fallback_on_optimizer_none :
    optimize [] SolverOutcome.raised
      (some (Portfolio.market_value
        ⟨1000, [("AAPL", ⟨"AAPL", [⟨1, 10, none⟩]⟩)], 0⟩
        (fun _ _ => 1) ⟨0, 2020, 1⟩)) = none ∧
    rebalance_portfolio [(some 10000, 27 / 100), (none, 42 / 100)] none false
      none true SolverOutcome.raised (fun _ _ => 1) ⟨0, 2020, 1⟩ []
      ⟨1000, [("AAPL", ⟨"AAPL", [⟨1, 10, none⟩]⟩)], 0⟩ = none :=
  ⟨rfl, rfl⟩

end PortfolioCore
